import Mathlib

/-!
Verification development for the RebarOpt solver (`src/utils/solver.ts`).

The TypeScript source is shallowly embedded: JavaScript numbers are modelled
as rationals (all arithmetic performed by the solver is exact on rationals),
`Math.floor` as `Int.floor`, arrays as lists, `Set` objects as duplicate-free
lists built by insert-if-absent, and the ambient `Math.random()` stream as an
explicit function `rng : Nat -> Rat` consumed at successive indices.  The
non-terminating `while` loop of the splice planner is given explicit fuel;
running out of fuel is a distinct error value, so every `.ok` result of the
embedding corresponds to a real terminating run of the source loop.
-/

namespace RebarOpt

/-- Settings record (`ProjectSettings` in `src/types.ts`); only the fields read
by the solver are modelled.  Enumerations are kept as strings because the
source compares them with string equality. -/
structure ProjectSettings where
  roundingStepMm : ℚ
  kerfMm : ℚ
  minLeftoverMm : ℚ
  optimizationLevel : String
  inventoryStrategy : String
  deriving DecidableEq, Repr

/-- `LapRule` from `src/types.ts`. -/
structure LapRule where
  dia : ℚ
  lapCase : String
  lengthMm : ℚ
  deriving DecidableEq, Repr

/-- `StockCatalogItem` from `src/types.ts`. -/
structure StockCatalogItem where
  dia : ℚ
  stockLengths : List ℚ
  deriving DecidableEq, Repr

/-- `SpliceZone` from `src/types.ts`. -/
structure SpliceZone where
  startMm : ℚ
  endMm : ℚ
  deriving DecidableEq, Repr

/-- `BarRun` from `src/types.ts` (fields used by the solver). -/
structure BarRun where
  id : String
  barMark : String
  dia : ℚ
  qtyParallel : ℕ
  totalLengthMm : ℚ
  lapCase : String
  allowedZones : List SpliceZone
  deriving DecidableEq, Repr

/-- `DirectPiece` from `src/types.ts`. -/
structure DirectPiece where
  id : String
  barMark : String
  dia : ℚ
  lengthMm : ℚ
  qty : ℕ
  deriving DecidableEq, Repr

/-- `OffcutInventoryItem` from `src/types.ts`. -/
structure OffcutInventoryItem where
  id : String
  dia : ℚ
  lengthMm : ℚ
  quantity : ℕ
  deriving DecidableEq, Repr

/-- One splice-plan piece (`SplicePlanItem.pieces` entries). -/
structure Piece where
  lengthMm : ℚ
  startMm : ℚ
  endMm : ℚ
  deriving DecidableEq, Repr

/-- `SplicePlanItem` from `src/types.ts`. -/
structure SplicePlanItem where
  runId : String
  barMark : String
  groupId : ℕ
  pieces : List Piece
  deriving DecidableEq, Repr

/-- `CuttingPlanItem` from `src/types.ts`; `sourceType` kept as a string. -/
structure CuttingPlanItem where
  dia : ℚ
  stockLength : ℚ
  count : ℕ
  cuts : List ℚ
  waste : ℚ
  offcut : ℚ
  sourceType : String
  deriving DecidableEq, Repr

/-- `ProcurementItem` from `src/types.ts`. -/
structure ProcurementItem where
  dia : ℚ
  stockLength : ℚ
  quantity : ℕ
  totalLength : ℚ
  deriving DecidableEq, Repr

/-- Internal cut request (`CutReq` in `solver.ts`). -/
structure CutReq where
  dia : ℚ
  len : ℚ
  source : String
  id : String
  deriving DecidableEq, Repr

/-- Internal bin (`Bin` in `solver.ts`). -/
structure Bin where
  stockLength : ℚ
  remaining : ℚ
  cuts : List ℚ
  isInventory : Bool
  deriving DecidableEq, Repr

/-- Supply option (`AvailableStockOption` in `solver.ts`); `id` is optional
exactly as in the source. -/
structure AvailableStockOption where
  len : ℚ
  isInventory : Bool
  id : Option String
  deriving DecidableEq, Repr

/-- The rule lookup `rules.find(...)` inside `getLapLength` (solver.ts line 7). -/
def findLapRule (dia : ℚ) (lapCase : String) : List LapRule → Option LapRule
  | [] => none
  | r :: rest => if r.dia = dia ∧ r.lapCase = lapCase then some r else findLapRule dia lapCase rest

/-- `getLapLength` (solver.ts lines 6-9): first matching rule, fallback `50*dia`. -/
def getLapLength (dia : ℚ) (lapCase : String) (rules : List LapRule) : ℚ :=
  match findLapRule dia lapCase rules with
  | some r => r.lengthMm
  | none => 50 * dia

/-- Stable insertion into a descending list: used to model the stable
JavaScript `sort` on numbers. -/
def insertQDesc (x : ℚ) : List ℚ → List ℚ
  | [] => [x]
  | y :: rest => if y ≤ x then x :: y :: rest else y :: insertQDesc x rest

/-- Descending sort of rationals, modelling `[...xs].sort((a,b) => b - a)`
(stable, like modern JS engines). -/
def sortQDesc (l : List ℚ) : List ℚ := l.foldr insertQDesc []

/-- Stable insertion into an ascending list. -/
def insertQAsc (x : ℚ) : List ℚ → List ℚ
  | [] => [x]
  | y :: rest => if y < x then y :: insertQAsc x rest else x :: y :: rest

/-- Ascending sort of rationals, modelling `sort((a,b) => a - b)`. -/
def sortQAsc (l : List ℚ) : List ℚ := l.foldr insertQAsc []

/-- The catalog lookup `catalog.find(...)` inside `getStockOptions` (line 12). -/
def findCatalogItem (dia : ℚ) : List StockCatalogItem → Option StockCatalogItem
  | [] => none
  | i :: rest => if i.dia = dia then some i else findCatalogItem dia rest

/-- `getStockOptions` (solver.ts lines 11-15): catalog lookup with fallback
`[12000]`, result sorted descending. -/
def getStockOptions (dia : ℚ) (catalog : List StockCatalogItem) : List ℚ :=
  match findCatalogItem dia catalog with
  | none => [12000]
  | some item => if item.stockLengths = [] then [12000] else sortQDesc item.stockLengths

/-- The largest stock length for a diameter: `stockOptions[0]` in the source
(the list returned by `getStockOptions` is never empty). -/
def maxStockOf (dia : ℚ) (catalog : List StockCatalogItem) : ℚ :=
  (getStockOptions dia catalog).headD 0

/-- `Math.round` of JavaScript: round half away from zero is not JS semantics;
JS rounds half toward positive infinity, i.e. `floor (x + 1/2)`. -/
def jsRound (q : ℚ) : ℚ := (⌊q + 1/2⌋ : ℤ)

/-- The search `zones.find(...)` for a zone containing the proposed splice
center (solver.ts lines 63-65). -/
def findContainingZone (centerTarget : ℚ) : List SpliceZone → Option SpliceZone
  | [] => none
  | z :: rest =>
    if z.startMm ≤ centerTarget ∧ centerTarget ≤ z.endMm then some z
    else findContainingZone centerTarget rest

/-- The filter `zones.filter(z => z.endMm < cursor + stock)` (solver.ts line 70). -/
def zonesBefore (limit : ℚ) : List SpliceZone → List SpliceZone
  | [] => []
  | z :: rest => if z.endMm < limit then z :: zonesBefore limit rest else zonesBefore limit rest

/-- Zone selection of one splice iteration (solver.ts lines 62-78): first a
zone containing the proposed splice center; otherwise, among zones ending
before the stock limit, the one reaching furthest. -/
def pickZone (zones : List SpliceZone) (lap L : ℚ) (cursor : ℚ) : Option SpliceZone :=
  let centerTarget := cursor + L - lap / 2
  match findContainingZone centerTarget zones with
  | some z => some z
  | none =>
    match zonesBefore (cursor + L) zones with
    | [] => none
    | h :: t => some (t.foldl (fun prev curr => if prev.endMm < curr.endMm then curr else prev) h)

/-- One iteration of the cut-length computation of `generateSplicePlan`
(solver.ts lines 59-103): the pre-rounding cut length and the violation flag. -/
def spliceStep (zones : List SpliceZone) (lap L : ℚ) (cursor : ℚ) : ℚ × Bool :=
  match pickZone zones lap L cursor with
  | some z =>
    let zoneMid := (z.startMm + z.endMm) / 2
    let c0 := if 1000 < z.endMm - z.startMm then z.endMm - lap / 2 - 100 else zoneMid
    let c1 := if L < c0 + lap / 2 - cursor then cursor + L - lap / 2 else c0
    (c1 + lap / 2 - cursor, false)
  | none => (L, true)

/-- Rounding of the cut length (solver.ts lines 105-106): floor to a multiple
of the rounding step, then clamp up to the minimum piece length 1000. -/
def roundCutLen (step c : ℚ) : ℚ :=
  let c1 := ((⌊c / step⌋ : ℤ) : ℚ) * step
  if c1 < 1000 then 1000 else c1

/-- The structural warning emitted on a forced splice (solver.ts line 111). -/
def forcedSpliceWarning (barMark : String) (spliceLoc L : ℚ) : String :=
  let loc := toString (jsRound spliceLoc)
  let stock := toString L
  s!"STRUCTURAL WARNING [{barMark}]: Forced splice at {loc}mm. No allowed zone was reachable with stock length {stock}mm."

/-- The fatal message of the divergence guard (solver.ts line 124). -/
def degenerateCutError (barMark : String) (cut lap : ℚ) : String :=
  let c := toString cut
  let l := toString lap
  s!"Infinite loop detected for {barMark}. Cut Length ({c}) <= Lap Length ({l})."

/-- Prepend the piece of the current loop iteration (and its warnings) to the
outcome of the remaining iterations. -/
def consPiece (c cursor : ℚ) (warns : List String) :
    Except String (List Piece × List String) → Except String (List Piece × List String)
  | .error e => .error e
  | .ok (rest, ws) => .ok (⟨c, cursor, cursor + c⟩ :: rest, warns ++ ws)

/-- The `while (remainingTotal > 0)` loop of `generateSplicePlan`
(solver.ts lines 45-130), with explicit fuel.  Returns the pieces of the run
together with the warnings the loop pushed. -/
def spliceLoop (run : BarRun) (lap L step : ℚ) :
    ℕ → ℚ → ℚ → Except String (List Piece × List String)
  | 0, _, remaining => if remaining ≤ 0 then .ok ([], []) else .error "fuel exhausted"
  | fuel + 1, cursor, remaining =>
    if remaining ≤ 0 then .ok ([], [])
    else if remaining ≤ L then .ok ([⟨remaining, cursor, cursor + remaining⟩], [])
    else
      let res := spliceStep run.allowedZones lap L cursor
      let c := roundCutLen step res.1
      let warns := if res.2 then [forcedSpliceWarning run.barMark (cursor + c - lap / 2) L] else []
      let advanceBy := c - lap
      if advanceBy ≤ 0 then .error (degenerateCutError run.barMark c lap)
      else consPiece c cursor warns
        (spliceLoop run lap L step fuel (cursor + advanceBy) (remaining - advanceBy))

/-- Fuel that suffices for any terminating run of the source loop on the given
run (each iteration advances by a positive multiple of the rounding step). -/
def spliceFuel (run : BarRun) : ℕ := (⌈run.totalLengthMm⌉ : ℤ).toNat + 1

/-- Processing of a single run inside `generateSplicePlan`
(solver.ts lines 28-138): lap lookup, stock lookup, the lap-vs-stock safety
check, and the piece loop. -/
def processRun (run : BarRun) (rules : List LapRule) (catalog : List StockCatalogItem)
    (settings : ProjectSettings) : Except String (List Piece × List String) :=
  let lap := getLapLength run.dia run.lapCase rules
  let maxStock := maxStockOf run.dia catalog
  if maxStock ≤ lap then
    .error "Critical Error: Lap length is greater than or equal to available stock length. Optimization impossible."
  else
    spliceLoop run lap maxStock settings.roundingStepMm (spliceFuel run) 0 run.totalLengthMm

/-- `generateSplicePlan` (solver.ts lines 19-141): every run is processed in
order; a `throw` in the source aborts the whole plan. -/
def generateSplicePlan (runs : List BarRun) (rules : List LapRule)
    (catalog : List StockCatalogItem) (settings : ProjectSettings) :
    Except String (List SplicePlanItem × List String) :=
  runs.foldl
    (fun acc run =>
      match acc with
      | .error e => .error e
      | .ok (plan, warnings) =>
        match processRun run rules catalog settings with
        | .error e => .error e
        | .ok (pieces, ws) => .ok (plan ++ [⟨run.id, run.barMark, 0, pieces⟩], warnings ++ ws))
    (.ok ([], []))

/-- JavaScript truthiness of the optional `id` field: `undefined` and the empty
string are falsy. -/
def idTruthy : Option String → Bool
  | none => false
  | some s => !s.isEmpty

/-- Insert into a `Set`-modelling list: add only if absent. -/
def insertIfAbsent (l : List String) (s : String) : List String :=
  if l.contains s then l else l ++ [s]

/-- The update condition of all best-fit scans: a candidate remainder is
accepted when non-negative and strictly below the incumbent minimum
(`Number.MAX_VALUE` is modelled by `none`). -/
def fitBeats {α : Type} (rem : ℚ) : Option (α × ℚ) → Prop
  | none => 0 ≤ rem
  | some p => 0 ≤ rem ∧ rem < p.2

instance {α : Type} (rem : ℚ) (best : Option (α × ℚ)) : Decidable (fitBeats rem best) :=
  match best with
  | none => inferInstanceAs (Decidable (0 ≤ rem))
  | some p => inferInstanceAs (Decidable (0 ≤ rem ∧ rem < p.2))

/-- The best-fit scan over open bins (solver.ts lines 181-190): first index
attaining the minimal non-negative `remaining - needed`, strict comparison. -/
def bestFitAux (needed : ℚ) : List Bin → ℕ → Option (ℕ × ℚ) → Option (ℕ × ℚ)
  | [], _, best => best
  | b :: rest, i, best =>
    let rem := b.remaining - needed
    bestFitAux needed rest (i + 1) (if fitBeats rem best then some (i, rem) else best)

/-- The skip test of the supply scan (solver.ts line 201):
`opt.isInventory && opt.id && usedInventoryIds.has(opt.id)`. -/
def optSkipped (used : List String) (o : AvailableStockOption) : Bool :=
  o.isInventory && idTruthy o.id && (match o.id with
    | some s => used.contains s
    | none => false)

/-- The best-fit scan over supply options (solver.ts lines 197-210): skip
consumed inventory, keep the first option attaining the minimal non-negative
`len - needed`. -/
def bestStockAux (needed : ℚ) (used : List String) :
    List AvailableStockOption → Option (AvailableStockOption × ℚ) → Option (AvailableStockOption × ℚ)
  | [], best => best
  | o :: rest, best =>
    if optSkipped used o then bestStockAux needed used rest best
    else
      let rem := o.len - needed
      bestStockAux needed used rest (if fitBeats rem best then some (o, rem) else best)

/-- Stable descending insertion for supply options, by length. -/
def insertOptDesc (x : AvailableStockOption) : List AvailableStockOption → List AvailableStockOption
  | [] => [x]
  | y :: rest => if y.len ≤ x.len then x :: y :: rest else y :: insertOptDesc x rest

/-- The fallback of the supply scan (solver.ts lines 213-218): the largest
new-stock option, if any. -/
def fallbackNewStock (stockOptions : List AvailableStockOption) : Option AvailableStockOption :=
  ((stockOptions.filter (fun o => !o.isInventory)).foldr insertOptDesc []).head?

/-- State threaded through the request loop of `packingPass`. -/
structure PackState where
  bins : List Bin
  usedInventoryIds : List String
  deriving DecidableEq, Repr

/-- Body of the request loop of `packingPass` (solver.ts lines 177-232). -/
def packStep (kerf : ℚ) (stockOptions : List AvailableStockOption)
    (st : PackState) (req : CutReq) : PackState :=
  let needed := req.len + kerf
  match bestFitAux needed st.bins 0 none with
  | some (i, _) =>
    match st.bins[i]? with
    | some b =>
      { st with bins := st.bins.set i { b with remaining := b.remaining - needed, cuts := b.cuts ++ [req.len] } }
    | none => st
  | none =>
    let chosen : Option AvailableStockOption :=
      match bestStockAux needed st.usedInventoryIds stockOptions none with
      | some (o, _) => some o
      | none => fallbackNewStock stockOptions
    match chosen with
    | some o =>
      { bins := st.bins ++ [⟨o.len, o.len - needed, [req.len], o.isInventory⟩],
        usedInventoryIds :=
          if o.isInventory && idTruthy o.id then insertIfAbsent st.usedInventoryIds (o.id.getD "")
          else st.usedInventoryIds }
    | none => st

/-- Result record of `packingPass` (solver.ts line 172). -/
structure PackResult where
  bins : List Bin
  stockCount : ℕ
  usedInventoryIds : List String
  deriving DecidableEq, Repr

/-- `packingPass` (solver.ts lines 168-237). -/
def packingPass (requests : List CutReq) (stockOptions : List AvailableStockOption)
    (kerf : ℚ) : PackResult :=
  let st := requests.foldl (packStep kerf stockOptions) ⟨[], []⟩
  ⟨st.bins, st.bins.length, st.usedInventoryIds⟩

/-- Stable descending insertion for cut requests, by length. -/
def insertReqDesc (x : CutReq) : List CutReq → List CutReq
  | [] => [x]
  | y :: rest => if y.len ≤ x.len then x :: y :: rest else y :: insertReqDesc x rest

/-- Descending sort of requests by length, modelling
`[...requests].sort((a,b) => b.len - a.len)`. -/
def sortReqDesc (l : List CutReq) : List CutReq := l.foldr insertReqDesc []

/-- Per-unit expansion of the inventory (solver.ts lines 250-255 and 344-348):
each item becomes `quantity` entries with ids `id-0`, `id-1`, .... -/
def expandInventory (inventory : List OffcutInventoryItem) : List (ℚ × String) :=
  inventory.foldl
    (fun acc inv => acc ++ (List.range inv.quantity).map (fun i => (inv.lengthMm, inv.id ++ "-" ++ toString i)))
    []

/-- The best-fit scan over unused offcut units (solver.ts lines 286-295). -/
def bestOffcutAux (needed : ℚ) (used : List ℕ) :
    List (ℚ × String) → ℕ → Option (ℕ × ℚ) → Option (ℕ × ℚ)
  | [], _, best => best
  | oc :: rest, i, best =>
    if used.contains i then bestOffcutAux needed used rest (i + 1) best
    else
      let rem := oc.1 - needed
      bestOffcutAux needed used rest (i + 1) (if fitBeats rem best then some (i, rem) else best)

/-- Stable ascending insertion for expanded offcut units, by length
(solver.ts line 257). -/
def insertOffcutAsc (x : ℚ × String) : List (ℚ × String) → List (ℚ × String)
  | [] => [x]
  | y :: rest => if y.1 < x.1 then y :: insertOffcutAsc x rest else x :: y :: rest

/-- Ascending sort of the expanded offcut units. -/
def sortOffcutsAsc (l : List (ℚ × String)) : List (ℚ × String) := l.foldr insertOffcutAsc []

/-- State of the request loop of `consumeInventorySequential`. -/
structure SeqState where
  inventoryBins : List Bin
  remainingRequests : List CutReq
  usedOffcutIndices : List ℕ
  deriving DecidableEq, Repr

/-- Body of the request loop of `consumeInventorySequential`
(solver.ts lines 265-308). -/
def seqStep (kerf : ℚ) (offcuts : List (ℚ × String)) (st : SeqState) (req : CutReq) : SeqState :=
  let needed := req.len + kerf
  match bestFitAux needed st.inventoryBins 0 none with
  | some (i, _) =>
    match st.inventoryBins[i]? with
    | some b =>
      { st with inventoryBins :=
          st.inventoryBins.set i { b with remaining := b.remaining - needed, cuts := b.cuts ++ [req.len] } }
    | none => st
  | none =>
    match bestOffcutAux needed st.usedOffcutIndices offcuts 0 none with
    | some (i, rem) =>
      match offcuts[i]? with
      | some oc =>
        { st with
          inventoryBins := st.inventoryBins ++ [⟨oc.1, rem, [req.len], true⟩],
          usedOffcutIndices := st.usedOffcutIndices ++ [i] }
      | none => st
    | none => { st with remainingRequests := st.remainingRequests ++ [req] }

/-- `consumeInventorySequential` (solver.ts lines 243-311). -/
def consumeInventorySequential (requests : List CutReq) (inventory : List OffcutInventoryItem)
    (settings : ProjectSettings) : List Bin × List CutReq :=
  let offcuts := sortOffcutsAsc (expandInventory inventory)
  let st := (sortReqDesc requests).foldl (seqStep settings.kerfMm offcuts) ⟨[], [], []⟩
  (st.inventoryBins, st.remainingRequests)

/-- The destructuring swap `[a[i], a[j]] = [a[j], a[i]]` on a JavaScript
array, modelled on lists; out-of-range indices (impossible for draws in
`[0,1)`) leave the list unchanged. -/
def listSwap (l : List CutReq) (i j : ℕ) : List CutReq :=
  match l[i]?, l[j]? with
  | some a, some b => (l.set i b).set j a
  | _, _ => l

/-- One Fisher-Yates pass (solver.ts lines 378-383): the loop index `k`
counts down; the draw at absolute stream position `t` selects
`j = floor(rand * (k+1))`. -/
def fisherYatesGo (rng : ℕ → ℚ) : List CutReq → ℕ → ℕ → List CutReq
  | l, 0, _ => l
  | l, k + 1, t =>
    let j := (⌊rng t * (((k + 1 : ℕ) : ℚ) + 1)⌋ : ℤ).toNat
    fisherYatesGo rng (listSwap l (k + 1) j) k (t + 1)

/-- The shuffle of one Monte Carlo iteration (`[...requests]` then
Fisher-Yates), drawing from the stream starting at `t0`. -/
def shuffleRequests (rng : ℕ → ℚ) (t0 : ℕ) (requests : List CutReq) : List CutReq :=
  fisherYatesGo rng requests (requests.length - 1) t0

/-- Total residual of a bin list, the quality metric of the Monte Carlo driver
(solver.ts lines 372 and 386). -/
def totalRemaining (bins : List Bin) : ℚ :=
  (bins.map (fun b => b.remaining)).sum

/-- `performMonteCarlo` (solver.ts lines 356-395): seed pass on requests
sorted descending, then `iterations` shuffled passes, keeping the bins with
strictly smaller total residual. -/
def performMonteCarlo (requests : List CutReq) (stockOptions : List AvailableStockOption)
    (settings : ProjectSettings) (rng : ℕ → ℚ) : List Bin :=
  let iterations : ℕ :=
    if settings.optimizationLevel == "BALANCED" then 50
    else if settings.optimizationLevel == "DEEP" then 200
    else 1
  let initialRes := packingPass (sortReqDesc requests) stockOptions settings.kerfMm
  let initialWaste := totalRemaining initialRes.bins
  let n := requests.length
  ((List.range iterations).foldl
    (fun best i =>
      let shuffled := shuffleRequests rng (i * (n - 1)) requests
      let res := packingPass shuffled stockOptions settings.kerfMm
      let waste := totalRemaining res.bins
      if waste < best.2 then (res.bins, waste) else best)
    (initialRes.bins, initialWaste)).1

/-- `optimizeDiaGroup` (solver.ts lines 313-354). -/
def optimizeDiaGroup (requests : List CutReq) (stockOptions : List ℚ)
    (settings : ProjectSettings) (inventory : List OffcutInventoryItem) (rng : ℕ → ℚ) : List Bin :=
  if settings.inventoryStrategy == "SEQUENTIAL" || settings.inventoryStrategy == "" then
    let res := consumeInventorySequential requests inventory settings
    if res.2 = [] then res.1
    else
      let newStockOpts : List AvailableStockOption := stockOptions.map (fun s => ⟨s, false, none⟩)
      res.1 ++ performMonteCarlo res.2 newStockOpts settings rng
  else
    let combined : List AvailableStockOption :=
      stockOptions.map (fun s => (⟨s, false, none⟩ : AvailableStockOption))
        ++ (expandInventory inventory).map (fun oc => ⟨oc.1, true, some oc.2⟩)
    performMonteCarlo requests combined settings rng

/-- `runs.find(r => r.id === sp.runId)` (solver.ts line 411). -/
def findRunById (runId : String) : List BarRun → Option BarRun
  | [] => none
  | r :: rest => if r.id = runId then some r else findRunById runId rest

/-- Request flattening from the splice plan (solver.ts lines 410-429):
`qtyParallel` copies of every piece, with ids `runId-G<g>-P<idx>-<i>`. -/
def spliceRequests (splicePlan : List SplicePlanItem) (runs : List BarRun) : List CutReq :=
  splicePlan.foldl
    (fun acc sp =>
      match findRunById sp.runId runs with
      | none => acc
      | some run =>
        if 0 < run.qtyParallel then
          acc ++ sp.pieces.enum.foldl
            (fun a2 ip =>
              a2 ++ (List.range run.qtyParallel).map
                (fun i => ⟨run.dia, ip.2.lengthMm, run.barMark,
                  sp.runId ++ "-G" ++ toString sp.groupId ++ "-P" ++ toString ip.1 ++ "-" ++ toString i⟩))
            []
        else acc)
    []

/-- Request flattening from direct pieces (solver.ts lines 432-441). -/
def directRequests (directPieces : List DirectPiece) : List CutReq :=
  directPieces.enum.foldl
    (fun acc idp =>
      acc ++ (List.range idp.2.qty).map
        (fun i => ⟨idp.2.dia, idp.2.lengthMm, idp.2.barMark, "D" ++ toString idp.1 ++ "-" ++ toString i⟩))
    []

/-- All cut requests of one solve (solver.ts lines 407-441). -/
def allRequestsOf (splicePlan : List SplicePlanItem) (runs : List BarRun)
    (directPieces : List DirectPiece) : List CutReq :=
  spliceRequests splicePlan runs ++ directRequests directPieces

/-- Rational membership test with decidable-equality branching. -/
def containsQ (x : ℚ) : List ℚ → Bool
  | [] => false
  | y :: rest => if y = x then true else containsQ x rest

/-- First-occurrence deduplication, modelling `Array.from(new Set(xs))`. -/
def dedupFirstQ (seen : List ℚ) : List ℚ → List ℚ
  | [] => []
  | x :: rest => if containsQ x seen then dedupFirstQ seen rest else x :: dedupFirstQ (seen ++ [x]) rest

/-- `Array.from(new Set(dias)).sort((a,b) => a-b)` (solver.ts line 450). -/
def uniqueDias (requests : List CutReq) : List ℚ :=
  sortQAsc (dedupFirstQ [] (requests.map (fun r => r.dia)))

/-- `allRequests.filter(r => r.dia === dia)` (solver.ts line 454). -/
def reqsOfDia (dia : ℚ) : List CutReq → List CutReq
  | [] => []
  | r :: rest => if r.dia = dia then r :: reqsOfDia dia rest else reqsOfDia dia rest

/-- `inventory.filter(i => i.dia === dia)` (solver.ts line 455). -/
def invOfDia (dia : ℚ) : List OffcutInventoryItem → List OffcutInventoryItem
  | [] => []
  | i :: rest => if i.dia = dia then i :: invOfDia dia rest else invOfDia dia rest

/-- The per-diameter optimization of `optimizeCutting` (solver.ts lines 452-457). -/
def diaGroups (allReqs : List CutReq) (catalog : List StockCatalogItem)
    (settings : ProjectSettings) (inventory : List OffcutInventoryItem) (rng : ℕ → ℚ) :
    List (ℚ × List Bin) :=
  (uniqueDias allReqs).map
    (fun dia =>
      (dia, optimizeDiaGroup (reqsOfDia dia allReqs) (getStockOptions dia catalog)
        settings (invOfDia dia inventory) rng))

/-- `globalTotalInputLength` (solver.ts line 466): sum of stock lengths over
all bins of all diameter groups. -/
def globalInputLength (groups : List (ℚ × List Bin)) : ℚ :=
  (groups.map (fun g => ((g.2.map (fun b => b.stockLength)).sum))).sum

/-- `globalTotalPartsLength` (solver.ts line 467). -/
def globalPartsLength (groups : List (ℚ × List Bin)) : ℚ :=
  (groups.map (fun g => ((g.2.map (fun b => b.cuts.sum)).sum))).sum

/-- `globalTotalWeight` (solver.ts lines 461-463). -/
def globalWeight (groups : List (ℚ × List Bin)) : ℚ :=
  (groups.map (fun g => ((g.2.map (fun b => g.1 * g.1 / 162 * (b.stockLength / 1000))).sum))).sum

/-- Value stored in the display-pattern map (solver.ts line 471). -/
structure PatternVal where
  count : ℕ
  cuts : List ℚ
  remaining : ℚ
  stock : ℚ
  isInventory : Bool
  deriving DecidableEq, Repr

/-- The display-pattern key (solver.ts line 475). -/
def patternKey (isInventory : Bool) (stock : ℚ) (sortedCuts : List ℚ) : String :=
  (if isInventory then "INV" else "NEW") ++ "|" ++ toString stock ++ "|"
    ++ String.intercalate "-" (sortedCuts.map (fun c => toString c))

/-- Insertion of one bin into the pattern map (solver.ts lines 473-488);
`Map` iteration order is insertion order, modelled by an association list. -/
def insertPattern (m : List (String × PatternVal)) (b : Bin) : List (String × PatternVal) :=
  let sortedCuts := sortQDesc b.cuts
  let key := patternKey b.isInventory b.stockLength sortedCuts
  if m.any (fun kv => kv.1 == key) then
    m.map (fun kv => if kv.1 == key then (kv.1, { kv.2 with count := kv.2.count + 1 }) else kv)
  else
    m ++ [(key, ⟨1, sortedCuts, max 0 b.remaining, b.stockLength, b.isInventory⟩)]

/-- The pattern values of one diameter group, in emission order. -/
def patternsOf (bins : List Bin) : List PatternVal :=
  (bins.foldl insertPattern []).map (fun kv => kv.2)

/-- The cutting-plan items of one diameter (solver.ts lines 490-501):
offcut/waste classification against `minLeftoverMm`. -/
def diaPlanItems (dia : ℚ) (settings : ProjectSettings) (bins : List Bin) : List CuttingPlanItem :=
  (patternsOf bins).map
    (fun v =>
      let isOffcut : Bool := decide (settings.minLeftoverMm ≤ v.remaining)
      ⟨dia, v.stock, v.count, v.cuts,
        if isOffcut then 0 else v.remaining,
        if isOffcut then v.remaining else 0,
        if v.isInventory then "EXISTING_INVENTORY" else "NEW_STOCK"⟩)

/-- Grouping of new-stock bins by stock length (solver.ts lines 504-509). -/
def stockLenGroups (bins : List Bin) : List (ℚ × ℕ) :=
  bins.foldl
    (fun m b =>
      if b.isInventory then m
      else if m.any (fun kv => kv.1 == b.stockLength) then
        m.map (fun kv => if kv.1 == b.stockLength then (kv.1, kv.2 + 1) else kv)
      else m ++ [(b.stockLength, 1)])
    []

/-- The procurement items of one diameter (solver.ts lines 511-518). -/
def diaProcurement (dia : ℚ) (bins : List Bin) : List ProcurementItem :=
  (stockLenGroups bins).map (fun kv => ⟨dia, kv.1, kv.2, (kv.2 : ℚ) * kv.1⟩)

/-- Result record of `optimizeCutting` (solver.ts line 405). -/
structure CutOptResult where
  cuttingPlan : List CuttingPlanItem
  procurement : List ProcurementItem
  totalUsedWeight : ℚ
  totalWaste : ℚ
  wastePercent : ℚ
  deriving DecidableEq, Repr

/-- `optimizeCutting` (solver.ts lines 398-531). -/
def optimizeCutting (splicePlan : List SplicePlanItem) (directPieces : List DirectPiece)
    (runs : List BarRun) (catalog : List StockCatalogItem) (settings : ProjectSettings)
    (inventory : List OffcutInventoryItem) (rng : ℕ → ℚ) : CutOptResult :=
  let allReqs := allRequestsOf splicePlan runs directPieces
  let groups := diaGroups allReqs catalog settings inventory rng
  let cuttingPlan := groups.foldl (fun acc g => acc ++ diaPlanItems g.1 settings g.2) []
  let procurement := groups.foldl (fun acc g => acc ++ diaProcurement g.1 g.2) []
  let input := globalInputLength groups
  let parts := globalPartsLength groups
  let totalWaste := input - parts
  let wastePercent := if 0 < input then totalWaste / input * 100 else 0
  ⟨cuttingPlan, procurement, globalWeight groups, totalWaste, wastePercent⟩

/-- Result record of `runSolver` (`OptimizationResult` in `src/types.ts`). -/
structure OptimizationResult where
  splicePlan : List SplicePlanItem
  cuttingPlan : List CuttingPlanItem
  procurement : List ProcurementItem
  totalWeight : ℚ
  totalWaste : ℚ
  wastePercent : ℚ
  warnings : List String
  deriving DecidableEq, Repr

/-- `runSolver` (solver.ts lines 533-568): empty-catalog guard, splice
planning, cutting optimization, rounded summary. -/
def runSolver (runs : List BarRun) (directPieces : List DirectPiece)
    (settings : ProjectSettings) (stock : List StockCatalogItem) (laps : List LapRule)
    (inventory : List OffcutInventoryItem) (rng : ℕ → ℚ) : Except String OptimizationResult :=
  if stock = [] then .error "Stock catalog is empty."
  else
    match generateSplicePlan runs laps stock settings with
    | .error e => .error e
    | .ok (splicePlan, warnings) =>
      let r := optimizeCutting splicePlan directPieces runs stock settings inventory rng
      .ok ⟨splicePlan, r.cuttingPlan, r.procurement,
        jsRound (r.totalUsedWeight * 100) / 100, jsRound r.totalWaste,
        jsRound (r.wastePercent * 100) / 100, warnings⟩


/-! ### Concrete inputs used by counterexamples and witnesses -/

/-- A run whose forced cut is clamped up to the 1000 mm minimum above the
900 mm stock length: lap 1, no reachable zone forcing, stock 900. -/
def runB2 : BarRun := ⟨"r2", "B2", 20, 1, 901, "BEAM_TOP", [⟨100, 200⟩]⟩

def rulesB2 : List LapRule := [⟨20, "BEAM_TOP", 1⟩]

def catB2 : List StockCatalogItem := [⟨20, [900]⟩]

def settingsB2 : ProjectSettings := ⟨1, 5, 0, "FAST", "SEQUENTIAL"⟩

/-- Scenario S1 of the spec: run 20000, zone [5000, 15000], lap 1000,
stock [12000]. -/
def runS1 : BarRun := ⟨"r1", "B1", 20, 1, 20000, "BEAM_TOP", [⟨5000, 15000⟩]⟩

def rulesS1 : List LapRule := [⟨20, "BEAM_TOP", 1000⟩]

def catS1 : List StockCatalogItem := [⟨20, [12000]⟩]

/-- A short run: its only piece is the final remainder of 500 mm. -/
def runB3 : BarRun := ⟨"r3", "B3", 20, 1, 500, "BEAM_TOP", []⟩

/-- A run with negative total length: the splice loop never executes. -/
def runB9 : BarRun := ⟨"r9", "B9", 20, 2, -5, "BEAM_TOP", []⟩

/-! ### Derived measures used by the verification -/

/-- The bookkeeping invariant of every bin (solver.ts lines 193, 212-229):
`remaining` always equals the stock length minus the kerf-inclusive sum of
its cuts. -/
def BinInvariant (kerf : ℚ) (b : Bin) : Prop :=
  b.remaining = b.stockLength - (b.cuts.map (fun c => c + kerf)).sum

/-- Total number of cuts placed across a list of bins. -/
def binsCutCount (bins : List Bin) : ℕ :=
  (bins.map (fun b => b.cuts.length)).sum

/-- Number of inventory bins. -/
def invBinCount (bins : List Bin) : ℕ :=
  (bins.map (fun b => if b.isInventory then 1 else 0)).sum

/-- Number of inventory options in a supply pool. -/
def invOptCount (opts : List AvailableStockOption) : ℕ :=
  (opts.map (fun o => if o.isInventory then 1 else 0)).sum

/-- Inventory-tracking invariant of the packing pass: the consumed-id set is
duplicate-free, every consumed id belongs to an inventory option of the pool,
and the number of inventory bins equals the number of consumed ids. -/
def PackGood (opts : List AvailableStockOption) (st : PackState) : Prop :=
  st.usedInventoryIds.Nodup
  ∧ (∀ id ∈ st.usedInventoryIds, ∃ o ∈ opts, o.isInventory = true ∧ o.id = some id)
  ∧ invBinCount st.bins = st.usedInventoryIds.length

/-- The ids of the inventory options of a pool. -/
def invIds (opts : List AvailableStockOption) : List String :=
  opts.filterMap (fun o => if o.isInventory then o.id else none)

/-- Total inventory-sourced pattern count of a cutting plan. -/
def invPlanCount (items : List CuttingPlanItem) : ℕ :=
  (items.map (fun it => if it.sourceType = "EXISTING_INVENTORY" then it.count else 0)).sum

/-- Consistency of the association list modelling the display-pattern `Map`:
each stored key is the pattern key of its value, each value's remaining is the
clamped residual recomputed from its own cuts, and keys are unique. -/
def PatConsistent (kerf : ℚ) (m : List (String × PatternVal)) : Prop :=
  (∀ kv ∈ m, kv.1 = patternKey kv.2.isInventory kv.2.stock kv.2.cuts
    ∧ kv.2.remaining = max 0 (kv.2.stock - (kv.2.cuts.map (fun c => c + kerf)).sum))
  ∧ (m.map (fun kv => kv.1)).Nodup

/-- Total inventory-pattern count of the association list. -/
def invPatCount (m : List (String × PatternVal)) : ℕ :=
  (m.map (fun kv => if kv.2.isInventory then kv.2.count else 0)).sum

/-- A constant-zero PRNG stream used by several concrete evaluations. -/
def rngZero : ℕ → ℚ := fun _ => 0

/-- MIXED-strategy settings with kerf 5, used by the C7 analysis. -/
def settingsC7 : ProjectSettings := ⟨1, 5, 0, "FAST", "MIXED"⟩

/-- Six cut requests on which best-fit-decreasing is suboptimal (stock
10000): sorted descending they pack into three bins, in the given order into
two perfect bins. -/
def reqsC8 : List CutReq :=
  [⟨20, 4000, "s", "a"⟩, ⟨20, 4000, "s", "b"⟩, ⟨20, 2000, "s", "c"⟩,
   ⟨20, 5000, "s", "d"⟩, ⟨20, 3000, "s", "e"⟩, ⟨20, 2000, "s", "f"⟩]

/-- A PRNG stream whose five draws make the Fisher-Yates shuffle of six
requests the identity permutation. -/
def rngC8 : ℕ → ℚ := fun t => [(5:ℚ)/6, 4/5, 3/4, 2/3, 1/2].getD t 0

/-- FAST settings with zero kerf, used by the C8 analysis. -/
def settingsC8 : ProjectSettings := ⟨1, 0, 0, "FAST", "MIXED"⟩

/-- One direct piece (diameter 16, 3000 mm), input of the C5 and C6
witnesses. -/
def directC6 : DirectPiece := ⟨"d1", "M1", 16, 3000, 1⟩

/-- A catalog with a single 12000 mm bar for diameter 16. -/
def catC6 : List StockCatalogItem := [⟨16, [12000]⟩]

/-- Sequential FAST settings with kerf 5 and a 500 mm leftover threshold. -/
def settingsC6 : ProjectSettings := ⟨1, 5, 500, "FAST", "SEQUENTIAL"⟩

/-- The single cutting-plan item produced from `directC6` under
`settingsC6`: one 3000 mm cut from a 12000 mm bar, residual 8995 ≥ 500, so
an offcut. -/
def itemC6 : CuttingPlanItem := ⟨16, 12000, 1, [3000], 0, 8995, "NEW_STOCK"⟩

/-- C1 as stated by the spec, as a predicate on one run configuration. -/
def spliceConservationWithin (run : BarRun) (rules : List LapRule)
    (catalog : List StockCatalogItem) (settings : ProjectSettings) : Prop :=
  ∀ pieces ws, processRun run rules catalog settings = .ok (pieces, ws) →
    |(pieces.map (fun p => p.lengthMm)).sum
        - ((pieces.length - 1 : ℕ) : ℚ) * getLapLength run.dia run.lapCase rules
        - run.totalLengthMm| ≤ settings.roundingStepMm

/-- C3 as stated by the spec: every emitted piece, the final one included,
is between 1000 mm and the largest stock length. -/
def pieceLengthBoundClaim (run : BarRun) (rules : List LapRule)
    (catalog : List StockCatalogItem) (settings : ProjectSettings) : Prop :=
  ∀ pieces ws, processRun run rules catalog settings = .ok (pieces, ws) →
    ∀ p ∈ pieces, 1000 ≤ p.lengthMm ∧ p.lengthMm ≤ maxStockOf run.dia catalog

/-- C2 as the spec states it: the kerf-inclusive cut sum of every bin of a
packing pass fits inside the stock length. -/
def binCapacityClaim (requests : List CutReq) (opts : List AvailableStockOption) (kerf : ℚ) : Prop :=
  ∀ b ∈ (packingPass requests opts kerf).bins,
    (b.cuts.map (fun c => c + kerf)).sum ≤ b.stockLength

/-- Invariant of the sequential consumption loop. -/
def SeqGood (kerf : ℚ) (offcuts : List (ℚ × String)) (st : SeqState) : Prop :=
  st.usedOffcutIndices.Nodup
  ∧ (∀ i ∈ st.usedOffcutIndices, i < offcuts.length)
  ∧ st.inventoryBins.length = st.usedOffcutIndices.length
  ∧ (∀ b ∈ st.inventoryBins, b.isInventory = true ∧ BinInvariant kerf b)

/-! ### Unfolding lemmas for the splice loop -/

theorem spliceLoop_done {run : BarRun} {lap L step : ℚ} {fuel : ℕ} {cursor remaining : ℚ}
    (h : remaining ≤ 0) :
    spliceLoop run lap L step fuel cursor remaining = .ok ([], []) := by
  cases fuel <;> simp [spliceLoop, h]

theorem spliceLoop_finish {run : BarRun} {lap L step : ℚ} {fuel : ℕ} {cursor remaining : ℚ}
    (hfuel : fuel ≠ 0) (h0 : ¬ remaining ≤ 0) (hL : remaining ≤ L) :
    spliceLoop run lap L step fuel cursor remaining
      = .ok ([⟨remaining, cursor, cursor + remaining⟩], []) := by
  cases fuel with
  | zero => exact absurd rfl hfuel
  | succ n => simp [spliceLoop, h0, hL]

theorem spliceLoop_cont {run : BarRun} {lap L step : ℚ} {fuel : ℕ} {cursor remaining : ℚ}
    (hfuel : fuel ≠ 0) (h0 : ¬ remaining ≤ 0) (hL : ¬ remaining ≤ L) :
    spliceLoop run lap L step fuel cursor remaining
      = (let res := spliceStep run.allowedZones lap L cursor
         let c := roundCutLen step res.1
         let warns := if res.2 then [forcedSpliceWarning run.barMark (cursor + c - lap / 2) L] else []
         let advanceBy := c - lap
         if advanceBy ≤ 0 then .error (degenerateCutError run.barMark c lap)
         else consPiece c cursor warns
           (spliceLoop run lap L step (fuel - 1) (cursor + advanceBy) (remaining - advanceBy))) := by
  cases fuel with
  | zero => exact absurd rfl hfuel
  | succ n => simp [spliceLoop, h0, hL]

/-! ### Bounds for one splice iteration -/

theorem spliceStep_fst_le (zones : List SpliceZone) (lap L cursor : ℚ) :
    (spliceStep zones lap L cursor).1 ≤ L := by
  cases hz : pickZone zones lap L cursor with
  | none => simp [spliceStep, hz]
  | some z =>
    simp only [spliceStep, hz]
    split_ifs with h1 h2 <;> linarith

theorem roundCutLen_ge_1000 (step c : ℚ) : 1000 ≤ roundCutLen step c := by
  simp only [roundCutLen]
  split_ifs with h
  · norm_num
  · linarith [not_lt.mp h]

theorem roundCutLen_le {step c L : ℚ} (hstep : 0 < step) (hc : c ≤ L) (hL : 1000 ≤ L) :
    roundCutLen step c ≤ L := by
  simp only [roundCutLen]
  split_ifs with h
  · exact hL
  · have h1 : ((⌊c / step⌋ : ℤ) : ℚ) ≤ c / step := Int.floor_le (c / step)
    have h2 : ((⌊c / step⌋ : ℤ) : ℚ) * step ≤ (c / step) * step :=
      mul_le_mul_of_nonneg_right h1 hstep.le
    have h3 : (c / step) * step = c := div_mul_cancel₀ c hstep.ne'
    linarith

/-! ### The master invariant of the splice loop -/

theorem spliceLoop_spec (run : BarRun) {lap L step : ℚ}
    (hlap : 0 ≤ lap) (hL : 1000 ≤ L) (hstep : 0 < step) :
    ∀ (fuel : ℕ) (cursor remaining : ℚ), 0 < remaining →
      ∀ pieces ws, spliceLoop run lap L step fuel cursor remaining = .ok (pieces, ws) →
        (pieces.map (fun p => p.lengthMm)).sum
            = remaining + ((pieces.length - 1 : ℕ) : ℚ) * lap
          ∧ 1 ≤ pieces.length
          ∧ (∀ p ∈ pieces, 0 < p.lengthMm ∧ p.lengthMm ≤ L)
          ∧ (∀ p ∈ pieces.dropLast, 1000 ≤ p.lengthMm) := by
  intro fuel
  induction fuel with
  | zero =>
    intro cursor remaining h0 pieces ws heq
    simp [spliceLoop, not_le.mpr h0] at heq
  | succ n ih =>
    intro cursor remaining h0 pieces ws heq
    simp only [spliceLoop] at heq
    rw [if_neg (not_le.mpr h0)] at heq
    by_cases hfin : remaining ≤ L
    · rw [if_pos hfin] at heq
      have hp : [(⟨remaining, cursor, cursor + remaining⟩ : Piece)] = pieces ∧ ws = [] := by
        simpa using heq
      obtain ⟨hp1, hp2⟩ := hp
      subst hp1
      refine ⟨by simp, by simp, ?_, by simp⟩
      intro p hp
      simp at hp
      subst hp
      exact ⟨h0, hfin⟩
    · rw [if_neg hfin] at heq
      set c := roundCutLen step (spliceStep run.allowedZones lap L cursor).1 with hc
      have hc1000 : 1000 ≤ c := roundCutLen_ge_1000 step _
      have hcL : c ≤ L := roundCutLen_le hstep (spliceStep_fst_le run.allowedZones lap L cursor) hL
      by_cases hadv : c - lap ≤ 0
      · rw [if_pos hadv] at heq
        simp at heq
      · rw [if_neg hadv] at heq
        have hrem2 : 0 < remaining - (c - lap) := by
          have : L < remaining := not_le.mp hfin
          linarith
        cases hrec : spliceLoop run lap L step n (cursor + (c - lap)) (remaining - (c - lap)) with
        | error e => rw [hrec] at heq; simp [consPiece] at heq
        | ok pr =>
          obtain ⟨rest, ws2⟩ := pr
          rw [hrec] at heq
          simp only [consPiece] at heq
          obtain ⟨hp, hw⟩ := Prod.mk.inj (Except.ok.inj heq)
          obtain ⟨hsum, hlen, hbound, hlast⟩ := ih (cursor + (c - lap)) (remaining - (c - lap)) hrem2 rest ws2 hrec
          subst hp
          have hrestne : rest ≠ [] := by
            intro hnil
            rw [hnil] at hlen
            simp at hlen
          constructor
          · have hcast : ((rest.length - 1 : ℕ) : ℚ) = (rest.length : ℚ) - 1 := by
              rw [Nat.cast_sub hlen]
              norm_num
            have hcast2 : (((⟨c, cursor, cursor + c⟩ :: rest).length - 1 : ℕ) : ℚ) = (rest.length : ℚ) := by
              simp
            rw [hcast2]
            simp only [List.map_cons, List.sum_cons]
            rw [hsum, hcast]
            ring
          refine ⟨by simp, ?_, ?_⟩
          · intro p hp
            rcases List.mem_cons.mp hp with h | h
            · subst h
              exact ⟨by linarith, hcL⟩
            · exact hbound p h
          · rw [List.dropLast_cons_of_ne_nil hrestne]
            intro p hp
            rcases List.mem_cons.mp hp with h | h
            · subst h
              exact hc1000
            · exact hlast p h

/-! ### C1: splice length conservation -/

theorem processRun_runB2 :
    processRun runB2 rulesB2 catB2 settingsB2 = .ok ([⟨1000, 0, 1000⟩], []) := by
  rw [processRun]
  norm_num [runB2, rulesB2, catB2, settingsB2, getLapLength, findLapRule, maxStockOf,
    getStockOptions, findCatalogItem, sortQDesc, insertQDesc]
  rw [spliceLoop_cont (by simp [spliceFuel]) (by norm_num) (by norm_num)]
  norm_num [runB2, spliceStep, pickZone, findContainingZone, zonesBefore, roundCutLen]
  rw [spliceLoop_done (by norm_num)]
  norm_num [consPiece]

/-- C1, counterexample: for the run `runB2` (total 901, lap 1, stock 900,
rounding step 1) the planner terminates without any fatal error, yet the
single emitted piece of 1000 mm misses the total by 99 mm, far beyond the
rounding step. -/
theorem C1_counterexample :
    ¬ spliceConservationWithin runB2 rulesB2 catB2 settingsB2 := by
  intro h
  have := h [⟨1000, 0, 1000⟩] [] processRun_runB2
  norm_num [runB2, rulesB2, settingsB2, getLapLength, findLapRule] at this

/-- C1 (amended): for every run with positive total length, non-negative lap
length, rounding step positive and largest stock length at least 1000 mm,
a successfully planned run satisfies the conservation law exactly:
the sum of piece lengths minus `(n-1)` laps equals `totalLengthMm`
(in particular it is within the rounding step). -/
theorem C1_splice_length_conservation (run : BarRun) (rules : List LapRule)
    (catalog : List StockCatalogItem) (settings : ProjectSettings)
    (hlap : 0 ≤ getLapLength run.dia run.lapCase rules)
    (hL : 1000 ≤ maxStockOf run.dia catalog)
    (hstep : 0 < settings.roundingStepMm)
    (htot : 0 < run.totalLengthMm)
    (pieces : List Piece) (ws : List String)
    (heq : processRun run rules catalog settings = .ok (pieces, ws)) :
    (pieces.map (fun p => p.lengthMm)).sum
        - ((pieces.length - 1 : ℕ) : ℚ) * getLapLength run.dia run.lapCase rules
      = run.totalLengthMm := by
  simp only [processRun] at heq
  split_ifs at heq with hguard
  obtain ⟨hsum, -, -, -⟩ :=
    spliceLoop_spec run hlap hL hstep (spliceFuel run) 0 run.totalLengthMm htot pieces ws heq
  rw [hsum]
  ring

theorem processRun_runS1 :
    processRun runS1 rulesS1 catS1 settingsB2
      = .ok ([⟨12000, 0, 12000⟩, ⟨9000, 11000, 20000⟩], []) := by
  rw [processRun]
  norm_num [runS1, rulesS1, catS1, settingsB2, getLapLength, findLapRule, maxStockOf,
    getStockOptions, findCatalogItem, sortQDesc, insertQDesc]
  rw [spliceLoop_cont (by simp [spliceFuel]) (by norm_num) (by norm_num)]
  norm_num [runS1, spliceStep, pickZone, findContainingZone, zonesBefore, roundCutLen]
  rw [spliceLoop_finish (by norm_num [spliceFuel, runS1]) (by norm_num) (by norm_num)]
  norm_num [consPiece]

/-- C1, witness: scenario S1 (run 20000, lap 1000, stock 12000) satisfies all
hypotheses, and the two planned pieces 12000 and 9000 conserve length
exactly. -/
theorem C1_witness :
    (0 : ℚ) ≤ getLapLength runS1.dia runS1.lapCase rulesS1
    ∧ 1000 ≤ maxStockOf runS1.dia catS1
    ∧ (0 : ℚ) < settingsB2.roundingStepMm
    ∧ (0 : ℚ) < runS1.totalLengthMm
    ∧ (([⟨12000, 0, 12000⟩, ⟨9000, 11000, 20000⟩] : List Piece).map (fun p => p.lengthMm)).sum
        - ((([⟨12000, 0, 12000⟩, ⟨9000, 11000, 20000⟩] : List Piece).length - 1 : ℕ) : ℚ)
          * getLapLength runS1.dia runS1.lapCase rulesS1
      = runS1.totalLengthMm := by
  have h1 : (0 : ℚ) ≤ getLapLength runS1.dia runS1.lapCase rulesS1 := by
    norm_num [runS1, rulesS1, getLapLength, findLapRule]
  have h2 : (1000 : ℚ) ≤ maxStockOf runS1.dia catS1 := by
    norm_num [runS1, catS1, maxStockOf, getStockOptions, findCatalogItem, sortQDesc, insertQDesc]
  have h3 : (0 : ℚ) < settingsB2.roundingStepMm := by norm_num [settingsB2]
  have h4 : (0 : ℚ) < runS1.totalLengthMm := by norm_num [runS1]
  exact ⟨h1, h2, h3, h4,
    C1_splice_length_conservation runS1 rulesS1 catS1 settingsB2 h1 h2 h3 h4 _ _ processRun_runS1⟩

/-! ### C3: piece length bounds -/

theorem processRun_runB3 :
    processRun runB3 rulesS1 catS1 settingsB2 = .ok ([⟨500, 0, 500⟩], []) := by
  rw [processRun]
  norm_num [runB3, rulesS1, catS1, settingsB2, getLapLength, findLapRule, maxStockOf,
    getStockOptions, findCatalogItem, sortQDesc, insertQDesc]
  rw [spliceLoop_finish (by simp [spliceFuel]) (by norm_num) (by norm_num)]
  norm_num

/-- C3, counterexample: a run of total length 500 mm yields one final piece of
500 mm, below the claimed 1000 mm minimum. -/
theorem C3_counterexample :
    ¬ pieceLengthBoundClaim runB3 rulesS1 catS1 settingsB2 := by
  intro h
  have := h [⟨500, 0, 500⟩] [] processRun_runB3 ⟨500, 0, 500⟩ (by simp)
  norm_num at this

/-- C3 (amended): under non-negative lap, positive rounding step and largest
stock length at least 1000 mm, every emitted piece has positive length at
most `maxStock`, and every piece except the final one is at least 1000 mm;
the final piece is only bounded by its positive remainder. -/
theorem C3_piece_length_bounds (run : BarRun) (rules : List LapRule)
    (catalog : List StockCatalogItem) (settings : ProjectSettings)
    (hlap : 0 ≤ getLapLength run.dia run.lapCase rules)
    (hL : 1000 ≤ maxStockOf run.dia catalog)
    (hstep : 0 < settings.roundingStepMm)
    (pieces : List Piece) (ws : List String)
    (heq : processRun run rules catalog settings = .ok (pieces, ws)) :
    (∀ p ∈ pieces, 0 < p.lengthMm ∧ p.lengthMm ≤ maxStockOf run.dia catalog)
    ∧ (∀ p ∈ pieces.dropLast, 1000 ≤ p.lengthMm) := by
  simp only [processRun] at heq
  split_ifs at heq with hguard
  by_cases htot : 0 < run.totalLengthMm
  · obtain ⟨-, -, hb, hd⟩ :=
      spliceLoop_spec run hlap hL hstep (spliceFuel run) 0 run.totalLengthMm htot pieces ws heq
    exact ⟨hb, hd⟩
  · rw [spliceLoop_done (not_lt.mp htot)] at heq
    have hp : ([] : List Piece) = pieces ∧ ws = [] := by simpa using heq
    obtain ⟨hp1, -⟩ := hp
    rw [← hp1]
    simp

/-- C3, witness: on scenario S1 both pieces lie in `(0, 12000]` and the
non-final piece is at least 1000 mm. -/
theorem C3_witness :
    (0 : ℚ) ≤ getLapLength runS1.dia runS1.lapCase rulesS1
    ∧ 1000 ≤ maxStockOf runS1.dia catS1
    ∧ (0 : ℚ) < settingsB2.roundingStepMm
    ∧ ((∀ p ∈ ([⟨12000, 0, 12000⟩, ⟨9000, 11000, 20000⟩] : List Piece),
          0 < p.lengthMm ∧ p.lengthMm ≤ maxStockOf runS1.dia catS1)
      ∧ (∀ p ∈ ([⟨12000, 0, 12000⟩, ⟨9000, 11000, 20000⟩] : List Piece).dropLast,
          1000 ≤ p.lengthMm)) := by
  have h1 : (0 : ℚ) ≤ getLapLength runS1.dia runS1.lapCase rulesS1 := by
    norm_num [runS1, rulesS1, getLapLength, findLapRule]
  have h2 : (1000 : ℚ) ≤ maxStockOf runS1.dia catS1 := by
    norm_num [runS1, catS1, maxStockOf, getStockOptions, findCatalogItem, sortQDesc, insertQDesc]
  have h3 : (0 : ℚ) < settingsB2.roundingStepMm := by norm_num [settingsB2]
  exact ⟨h1, h2, h3,
    C3_piece_length_bounds runS1 rulesS1 catS1 settingsB2 h1 h2 h3 _ _ processRun_runS1⟩

/-! ### C10: zero-length runs succeed -/

/-- C10: a run with `totalLengthMm ≤ 0` (and lap below the largest stock
length) produces a splice-plan item with an empty piece list, no warning,
and the whole solve returns a result. -/
theorem C10_zero_length_run_succeeds (run : BarRun) (directPieces : List DirectPiece)
    (settings : ProjectSettings) (stock : List StockCatalogItem) (laps : List LapRule)
    (inventory : List OffcutInventoryItem) (rng : ℕ → ℚ)
    (hstock : stock ≠ [])
    (hlap : getLapLength run.dia run.lapCase laps < maxStockOf run.dia stock)
    (htot : run.totalLengthMm ≤ 0) :
    ∃ res, runSolver [run] directPieces settings stock laps inventory rng = .ok res
      ∧ res.splicePlan = [⟨run.id, run.barMark, 0, []⟩]
      ∧ res.warnings = [] := by
  have hrun : processRun run laps stock settings = .ok ([], []) := by
    simp only [processRun]
    rw [if_neg (not_le.mpr hlap)]
    exact spliceLoop_done htot
  have hplan : generateSplicePlan [run] laps stock settings
      = .ok ([⟨run.id, run.barMark, 0, []⟩], []) := by
    simp [generateSplicePlan, hrun]
  rw [runSolver, if_neg hstock, hplan]
  exact ⟨_, rfl, rfl, rfl⟩

/-- C10, witness: the concrete run `runB9` of total length -5 with lap 1000
and stock 12000 satisfies the hypotheses, and its solve succeeds with an
empty-pieces plan item and no warnings. -/
theorem C10_witness :
    ([⟨20, [12000]⟩] : List StockCatalogItem) ≠ []
    ∧ getLapLength runB9.dia runB9.lapCase rulesS1 < maxStockOf runB9.dia [⟨20, [12000]⟩]
    ∧ runB9.totalLengthMm ≤ 0
    ∧ ∃ res, runSolver [runB9] [] settingsB2 [⟨20, [12000]⟩] rulesS1 [] (fun _ => 0) = .ok res
        ∧ res.splicePlan = [⟨runB9.id, runB9.barMark, 0, []⟩]
        ∧ res.warnings = [] := by
  have h1 : ([⟨20, [12000]⟩] : List StockCatalogItem) ≠ [] := by simp
  have h2 : getLapLength runB9.dia runB9.lapCase rulesS1
      < maxStockOf runB9.dia [⟨20, [12000]⟩] := by
    norm_num [runB9, rulesS1, getLapLength, findLapRule, maxStockOf, getStockOptions,
      findCatalogItem, sortQDesc, insertQDesc]
  have h3 : runB9.totalLengthMm ≤ 0 := by norm_num [runB9]
  exact ⟨h1, h2, h3,
    C10_zero_length_run_succeeds runB9 [] settingsB2 [⟨20, [12000]⟩] rulesS1 [] (fun _ => 0)
      h1 h2 h3⟩

/-! ### Facts about the best-fit scans -/

theorem fitBeats_nonneg {α : Type} {rem : ℚ} {best : Option (α × ℚ)}
    (h : fitBeats rem best) : 0 ≤ rem := by
  cases best with
  | none => exact h
  | some p => exact h.1

theorem bestFitAux_spec (needed : ℚ) :
    ∀ (l : List Bin) (i0 : ℕ) (acc : Option (ℕ × ℚ)) (j : ℕ) (r : ℚ),
      bestFitAux needed l i0 acc = some (j, r) →
      acc = some (j, r)
        ∨ ∃ k, ∃ hk : k < l.length, j = i0 + k
            ∧ r = (l.get ⟨k, hk⟩).remaining - needed ∧ 0 ≤ r := by
  intro l
  induction l with
  | nil => intro i0 acc j r h; exact Or.inl h
  | cons b rest ih =>
    intro i0 acc j r h
    simp only [bestFitAux] at h
    rcases ih (i0 + 1) _ j r h with hacc | ⟨k, hk, hj, hr, hnn⟩
    · by_cases hb : fitBeats (b.remaining - needed) acc
      · rw [if_pos hb] at hacc
        obtain ⟨h1, h2⟩ := Prod.mk.inj (Option.some.inj hacc)
        refine Or.inr ⟨0, by simp, by omega, ?_, ?_⟩
        · simp [← h2]
        · rw [← h2]; exact fitBeats_nonneg hb
      · rw [if_neg hb] at hacc
        exact Or.inl hacc
    · refine Or.inr ⟨k + 1, by simpa using hk, by omega, ?_, hnn⟩
      simpa using hr

theorem bestStockAux_spec (needed : ℚ) (used : List String) :
    ∀ (l : List AvailableStockOption) (acc : Option (AvailableStockOption × ℚ))
      (o : AvailableStockOption) (r : ℚ),
      bestStockAux needed used l acc = some (o, r) →
      acc = some (o, r)
        ∨ (o ∈ l ∧ optSkipped used o = false ∧ r = o.len - needed ∧ 0 ≤ r) := by
  intro l
  induction l with
  | nil => intro acc o r h; exact Or.inl h
  | cons x rest ih =>
    intro acc o r h
    simp only [bestStockAux] at h
    by_cases hskip : optSkipped used x
    · rw [if_pos hskip] at h
      rcases ih acc o r h with hacc | ⟨hm, hs, hr, hnn⟩
      · exact Or.inl hacc
      · exact Or.inr ⟨List.mem_cons_of_mem x hm, hs, hr, hnn⟩
    · rw [if_neg hskip] at h
      rcases ih _ o r h with hacc | ⟨hm, hs, hr, hnn⟩
      · by_cases hb : fitBeats (x.len - needed) acc
        · rw [if_pos hb] at hacc
          obtain ⟨h1, h2⟩ := Prod.mk.inj (Option.some.inj hacc)
          subst h1
          refine Or.inr ⟨List.mem_cons_self x rest, by simpa using hskip, h2.symm, ?_⟩
          rw [← h2]; exact fitBeats_nonneg hb
        · rw [if_neg hb] at hacc
          exact Or.inl hacc
      · exact Or.inr ⟨List.mem_cons_of_mem x hm, hs, hr, hnn⟩

theorem bestStockAux_none (needed : ℚ) (used : List String) :
    ∀ (l : List AvailableStockOption) (acc : Option (AvailableStockOption × ℚ)),
      bestStockAux needed used l acc = none →
      acc = none ∧ ∀ o ∈ l, optSkipped used o = true ∨ o.len - needed < 0 := by
  intro l
  induction l with
  | nil => intro acc h; exact ⟨h, by simp⟩
  | cons x rest ih =>
    intro acc h
    simp only [bestStockAux] at h
    by_cases hskip : optSkipped used x
    · rw [if_pos hskip] at h
      obtain ⟨hacc, hall⟩ := ih acc h
      refine ⟨hacc, ?_⟩
      intro o ho
      rcases List.mem_cons.mp ho with rfl | ho
      · exact Or.inl hskip
      · exact hall o ho
    · rw [if_neg hskip] at h
      obtain ⟨hacc, hall⟩ := ih _ h
      by_cases hb : fitBeats (x.len - needed) acc
      · rw [if_pos hb] at hacc; exact absurd hacc (by simp)
      · rw [if_neg hb] at hacc
        subst hacc
        refine ⟨rfl, ?_⟩
        intro o ho
        rcases List.mem_cons.mp ho with rfl | ho
        · right
          by_contra hge
          exact hb (by simpa [fitBeats] using not_lt.mp hge)
        · exact hall o ho

theorem optSkipped_new {used : List String} {o : AvailableStockOption}
    (h : o.isInventory = false) : optSkipped used o = false := by
  simp [optSkipped, h]

/-! ### Permutation facts for the stable insertion sorts -/

theorem insertOptDesc_perm (x : AvailableStockOption) (l : List AvailableStockOption) :
    (insertOptDesc x l).Perm (x :: l) := by
  induction l with
  | nil => simp [insertOptDesc]
  | cons y rest ih =>
    simp only [insertOptDesc]
    split_ifs with h
    · rfl
    · exact ((ih.cons y).trans (List.Perm.swap x y rest))

theorem insertQDesc_perm (x : ℚ) (l : List ℚ) : (insertQDesc x l).Perm (x :: l) := by
  induction l with
  | nil => simp [insertQDesc]
  | cons y rest ih =>
    simp only [insertQDesc]
    split_ifs with h
    · rfl
    · exact ((ih.cons y).trans (List.Perm.swap x y rest))

theorem sortQDesc_perm (l : List ℚ) : (sortQDesc l).Perm l := by
  induction l with
  | nil => simp [sortQDesc]
  | cons x rest ih =>
    have : sortQDesc (x :: rest) = insertQDesc x (sortQDesc rest) := rfl
    rw [this]
    exact (insertQDesc_perm x (sortQDesc rest)).trans (ih.cons x)

theorem insertQAsc_perm (x : ℚ) (l : List ℚ) : (insertQAsc x l).Perm (x :: l) := by
  induction l with
  | nil => simp [insertQAsc]
  | cons y rest ih =>
    simp only [insertQAsc]
    split_ifs with h
    · exact ((ih.cons y).trans (List.Perm.swap x y rest))
    · rfl

theorem sortQAsc_perm (l : List ℚ) : (sortQAsc l).Perm l := by
  induction l with
  | nil => simp [sortQAsc]
  | cons x rest ih =>
    have : sortQAsc (x :: rest) = insertQAsc x (sortQAsc rest) := rfl
    rw [this]
    exact (insertQAsc_perm x (sortQAsc rest)).trans (ih.cons x)

theorem insertReqDesc_perm (x : CutReq) (l : List CutReq) : (insertReqDesc x l).Perm (x :: l) := by
  induction l with
  | nil => simp [insertReqDesc]
  | cons y rest ih =>
    simp only [insertReqDesc]
    split_ifs with h
    · rfl
    · exact ((ih.cons y).trans (List.Perm.swap x y rest))

theorem sortReqDesc_perm (l : List CutReq) : (sortReqDesc l).Perm l := by
  induction l with
  | nil => simp [sortReqDesc]
  | cons x rest ih =>
    have : sortReqDesc (x :: rest) = insertReqDesc x (sortReqDesc rest) := rfl
    rw [this]
    exact (insertReqDesc_perm x (sortReqDesc rest)).trans (ih.cons x)

theorem insertOffcutAsc_perm (x : ℚ × String) (l : List (ℚ × String)) :
    (insertOffcutAsc x l).Perm (x :: l) := by
  induction l with
  | nil => simp [insertOffcutAsc]
  | cons y rest ih =>
    simp only [insertOffcutAsc]
    split_ifs with h
    · exact ((ih.cons y).trans (List.Perm.swap x y rest))
    · rfl

theorem sortOffcutsAsc_perm (l : List (ℚ × String)) : (sortOffcutsAsc l).Perm l := by
  induction l with
  | nil => simp [sortOffcutsAsc]
  | cons x rest ih =>
    have : sortOffcutsAsc (x :: rest) = insertOffcutAsc x (sortOffcutsAsc rest) := rfl
    rw [this]
    exact (insertOffcutAsc_perm x (sortOffcutsAsc rest)).trans (ih.cons x)

/-! ### The fallback supply option -/

theorem sortedNewStock_perm (opts : List AvailableStockOption) :
    (List.foldr insertOptDesc [] (opts.filter (fun o => !o.isInventory))).Perm
      (opts.filter (fun o => !o.isInventory)) := by
  induction opts.filter (fun o => !o.isInventory) with
  | nil => simp
  | cons x rest ih => exact (insertOptDesc_perm x _).trans (ih.cons x)

theorem fallbackNewStock_spec {opts : List AvailableStockOption} {o : AvailableStockOption}
    (h : fallbackNewStock opts = some o) : o ∈ opts ∧ o.isInventory = false := by
  unfold fallbackNewStock at h
  have hmem : o ∈ List.foldr insertOptDesc [] (opts.filter (fun o => !o.isInventory)) := by
    cases hsort : List.foldr insertOptDesc [] (opts.filter (fun o => !o.isInventory)) with
    | nil => rw [hsort] at h; simp at h
    | cons a t =>
      rw [hsort] at h
      simp only [List.head?] at h
      have ha : a = o := by simpa using h
      rw [← ha]
      exact List.mem_cons_self a t
  have hmf : o ∈ opts.filter (fun o => !o.isInventory) :=
    (sortedNewStock_perm opts).mem_iff.mp hmem
  have := List.mem_filter.mp hmf
  exact ⟨this.1, by simpa using this.2⟩

theorem fallbackNewStock_of_new {opts : List AvailableStockOption}
    (h : ∃ o ∈ opts, o.isInventory = false) : ∃ o2, fallbackNewStock opts = some o2 := by
  obtain ⟨o, ho, hnew⟩ := h
  have hmf : o ∈ opts.filter (fun o => !o.isInventory) :=
    List.mem_filter.mpr ⟨ho, by simp [hnew]⟩
  have hmem : o ∈ List.foldr insertOptDesc [] (opts.filter (fun o => !o.isInventory)) :=
    (sortedNewStock_perm opts).mem_iff.mpr hmf
  unfold fallbackNewStock
  cases hsort : List.foldr insertOptDesc [] (opts.filter (fun o => !o.isInventory)) with
  | nil => rw [hsort] at hmem; simp at hmem
  | cons a t => exact ⟨a, by simp⟩

/-! ### Invariants of one packing step -/

theorem bestFitAux_top {needed : ℚ} {bins : List Bin} {j : ℕ} {r : ℚ}
    (h : bestFitAux needed bins 0 none = some (j, r)) :
    ∃ hk : j < bins.length, r = (bins.get ⟨j, hk⟩).remaining - needed ∧ 0 ≤ r := by
  rcases bestFitAux_spec needed bins 0 none j r h with hacc | ⟨k, hk, hj, hr, hnn⟩
  · simp at hacc
  · have hjk : j = k := by omega
    subst hjk
    exact ⟨hk, hr, hnn⟩

theorem binsCutCount_set {l : List Bin} {i : ℕ} {b0 b1 : Bin} (hget : l[i]? = some b0)
    (hlen : b1.cuts.length = b0.cuts.length + 1) :
    binsCutCount (l.set i b1) = binsCutCount l + 1 := by
  induction l generalizing i with
  | nil => simp at hget
  | cons x rest ih =>
    cases i with
    | zero =>
      have hx : x = b0 := by simpa using hget
      subst hx
      simp [binsCutCount]
      omega
    | succ n =>
      have hget2 : rest[n]? = some b0 := by simpa using hget
      have := ih hget2
      simp [binsCutCount] at this
      simp [binsCutCount, List.set]
      omega

theorem invBinCount_set {l : List Bin} {i : ℕ} {b0 b1 : Bin} (hget : l[i]? = some b0)
    (hsame : b1.isInventory = b0.isInventory) :
    invBinCount (l.set i b1) = invBinCount l := by
  induction l generalizing i with
  | nil => simp at hget
  | cons x rest ih =>
    cases i with
    | zero =>
      have hx : x = b0 := by simpa using hget
      subst hx
      simp [invBinCount, hsame]
    | succ n =>
      have hget2 : rest[n]? = some b0 := by simpa using hget
      have := ih hget2
      simp [invBinCount] at this
      simp [invBinCount, List.set]
      omega

theorem mem_set_cases {l : List Bin} {i : ℕ} {b1 b : Bin} (hb : b ∈ l.set i b1) :
    b ∈ l ∨ b = b1 :=
  List.mem_or_eq_of_mem_set hb

/-- Case analysis on one packing step: either a request is placed into an
existing bin (tightest fit, non-negative residual), or a new bin is opened
on a supply option, or (only when no new-stock option exists and nothing
fits) the request is dropped. -/
theorem packStep_cases (kerf : ℚ) (opts : List AvailableStockOption)
    (st : PackState) (req : CutReq) :
    (∃ i b0, st.bins[i]? = some b0 ∧ 0 ≤ b0.remaining - (req.len + kerf)
      ∧ (packStep kerf opts st req).bins
          = st.bins.set i { b0 with remaining := b0.remaining - (req.len + kerf),
                                    cuts := b0.cuts ++ [req.len] }
      ∧ (packStep kerf opts st req).usedInventoryIds = st.usedInventoryIds)
    ∨ (∃ o,
      ((o ∈ opts ∧ optSkipped st.usedInventoryIds o = false ∧ 0 ≤ o.len - (req.len + kerf))
        ∨ (o.isInventory = false
            ∧ bestStockAux (req.len + kerf) st.usedInventoryIds opts none = none))
      ∧ (packStep kerf opts st req).bins
          = st.bins ++ [⟨o.len, o.len - (req.len + kerf), [req.len], o.isInventory⟩]
      ∧ (packStep kerf opts st req).usedInventoryIds
          = (if o.isInventory && idTruthy o.id then insertIfAbsent st.usedInventoryIds (o.id.getD "")
             else st.usedInventoryIds))
    ∨ ((¬ ∃ o ∈ opts, o.isInventory = false)
      ∧ packStep kerf opts st req = st) := by
  simp only [packStep]
  cases hfit : bestFitAux (req.len + kerf) st.bins 0 none with
  | some p =>
    obtain ⟨i, r⟩ := p
    obtain ⟨hk, hr, hnn⟩ := bestFitAux_top hfit
    have hget : st.bins[i]? = some (st.bins.get ⟨i, hk⟩) := by
      rw [List.getElem?_eq_some_iff]
      exact ⟨hk, by simp⟩
    dsimp only
    rw [hget]
    dsimp only
    refine Or.inl ⟨i, st.bins.get ⟨i, hk⟩, hget, ?_, rfl, rfl⟩
    rw [← hr]
    exact hnn
  | none =>
    cases hsel : bestStockAux (req.len + kerf) st.usedInventoryIds opts none with
    | some p =>
      obtain ⟨o, r⟩ := p
      dsimp only
      rcases bestStockAux_spec (req.len + kerf) st.usedInventoryIds opts none o r hsel with
        hacc | ⟨hm, hs, hr, hnn⟩
      · simp at hacc
      · refine Or.inr (Or.inl ⟨o, Or.inl ⟨hm, hs, ?_⟩, rfl, rfl⟩)
        rw [← hr]
        exact hnn
    | none =>
      cases hfb : fallbackNewStock opts with
      | some o =>
        dsimp only
        have hsp := fallbackNewStock_spec hfb
        exact Or.inr (Or.inl ⟨o, Or.inr ⟨hsp.2, rfl⟩, rfl, rfl⟩)
      | none =>
        dsimp only
        refine Or.inr (Or.inr ⟨?_, rfl⟩)
        intro hex
        obtain ⟨o2, ho2⟩ := fallbackNewStock_of_new hex
        rw [hfb] at ho2
        simp at ho2

/-! ### Fold induction helper -/

theorem foldl_induct {α σ : Type} (P : σ → Prop) (step : σ → α → σ) :
    ∀ (l : List α) (init : σ), P init → (∀ s, P s → ∀ x ∈ l, P (step s x)) →
      P (l.foldl step init) := by
  intro l
  induction l with
  | nil => intro init h _; exact h
  | cons x rest ih =>
    intro init h hstep
    exact ih _ (hstep init h x (by simp)) (fun s hs y hy => hstep s hs y (by simp [hy]))

/-! ### Preservation of the bin bookkeeping invariant -/

theorem getElem?_mem_bins {l : List Bin} {i : ℕ} {b : Bin} (h : l[i]? = some b) : b ∈ l := by
  rw [List.getElem?_eq_some_iff] at h
  obtain ⟨h1, h2⟩ := h
  rw [← h2]
  exact List.getElem_mem h1

theorem packStep_preserves_inv {kerf : ℚ} {opts : List AvailableStockOption}
    {st : PackState} {req : CutReq} (h : ∀ b ∈ st.bins, BinInvariant kerf b) :
    ∀ b ∈ (packStep kerf opts st req).bins, BinInvariant kerf b := by
  rcases packStep_cases kerf opts st req with
    ⟨i, b0, hget, hnn, hbins, -⟩ | ⟨o, -, hbins, -⟩ | ⟨-, heq⟩
  · intro b hb
    rw [hbins] at hb
    rcases List.mem_or_eq_of_mem_set hb with hmem | rfl
    · exact h b hmem
    · have hb0 := h b0 (getElem?_mem_bins hget)
      unfold BinInvariant at hb0 ⊢
      simp only [List.map_append, List.sum_append, List.map_cons, List.sum_cons,
        List.map_nil, List.sum_nil]
      rw [hb0]
      ring
  · intro b hb
    rw [hbins] at hb
    rcases List.mem_append.mp hb with hmem | hone
    · exact h b hmem
    · have hb1 : b = ⟨o.len, o.len - (req.len + kerf), [req.len], o.isInventory⟩ := by
        simpa using hone
      subst hb1
      unfold BinInvariant
      simp
  · rw [heq]
    exact h

theorem packStep_preserves_nonneg {kerf : ℚ} {opts : List AvailableStockOption}
    {st : PackState} {req : CutReq}
    (hreq : ∃ o ∈ opts, o.isInventory = false ∧ req.len + kerf ≤ o.len)
    (h : ∀ b ∈ st.bins, 0 ≤ b.remaining) :
    ∀ b ∈ (packStep kerf opts st req).bins, 0 ≤ b.remaining := by
  rcases packStep_cases kerf opts st req with
    ⟨i, b0, hget, hnn, hbins, -⟩ | ⟨o, hsel, hbins, -⟩ | ⟨-, heq⟩
  · intro b hb
    rw [hbins] at hb
    rcases List.mem_or_eq_of_mem_set hb with hmem | rfl
    · exact h b hmem
    · exact hnn
  · intro b hb
    rw [hbins] at hb
    rcases List.mem_append.mp hb with hmem | hone
    · exact h b hmem
    · have hb1 : b = ⟨o.len, o.len - (req.len + kerf), [req.len], o.isInventory⟩ := by
        simpa using hone
      subst hb1
      rcases hsel with ⟨-, -, hfit⟩ | ⟨-, hnone⟩
      · exact hfit
      · obtain ⟨o2, ho2, hnew2, hle2⟩ := hreq
        obtain ⟨-, hall⟩ := bestStockAux_none (req.len + kerf) st.usedInventoryIds opts none hnone
        rcases hall o2 ho2 with hskip | hlt
        · rw [optSkipped_new hnew2] at hskip
          simp at hskip
        · linarith
  · rw [heq]
    exact h

/-! ### C2: bin capacity -/

theorem packingPass_oversize :
    packingPass [⟨20, 13000, "s", "x"⟩] [⟨12000, false, none⟩] 0
      = ⟨[⟨12000, -1000, [13000], false⟩], 1, []⟩ := by
  norm_num [packingPass, packStep, bestFitAux, bestStockAux, optSkipped, idTruthy,
    fitBeats, fallbackNewStock, insertOptDesc, List.filter]

/-- C2, counterexample: a single 13000 mm request against 12000 mm stock goes
through the force-oversize fallback; the resulting bin holds 13000 mm of cuts
in a 12000 mm bar, so `Σ(cut + kerf) ≤ stockLength` fails, and its `remaining`
is the negative `-1000`. -/
theorem C2_counterexample :
    ¬ binCapacityClaim [⟨20, 13000, "s", "x"⟩] [⟨12000, false, none⟩] 0 := by
  intro h
  have hmem : (⟨12000, -1000, [13000], false⟩ : Bin)
      ∈ (packingPass [⟨20, 13000, "s", "x"⟩] [⟨12000, false, none⟩] 0).bins := by
    rw [packingPass_oversize]
    simp
  have := h _ hmem
  norm_num at this

theorem packingPass_bin_inv (requests : List CutReq) (opts : List AvailableStockOption)
    (kerf : ℚ) : ∀ b ∈ (packingPass requests opts kerf).bins, BinInvariant kerf b :=
  foldl_induct (fun st => ∀ b ∈ st.bins, BinInvariant kerf b) (packStep kerf opts)
    requests ⟨[], []⟩ (by simp) (fun st hst req _ => packStep_preserves_inv hst)

/-- C2 (amended): in every bin of a packing pass, `remaining` equals
`stockLength` minus the kerf-inclusive sum of its cuts, unconditionally; and
whenever every request fits into at least one new-stock option of the pool
(so the force-oversize fallback is never exercised), every bin also satisfies
the capacity bound `Σ(cut + kerf) ≤ stockLength`. -/
theorem C2_bin_capacity (requests : List CutReq) (opts : List AvailableStockOption) (kerf : ℚ) :
    (∀ b ∈ (packingPass requests opts kerf).bins,
        b.remaining = b.stockLength - (b.cuts.map (fun c => c + kerf)).sum)
    ∧ ((∀ req ∈ requests, ∃ o ∈ opts, o.isInventory = false ∧ req.len + kerf ≤ o.len) →
        ∀ b ∈ (packingPass requests opts kerf).bins,
          (b.cuts.map (fun c => c + kerf)).sum ≤ b.stockLength) := by
  constructor
  · exact packingPass_bin_inv requests opts kerf
  · intro hfits
    have h2 : ∀ b ∈ ((requests.foldl (packStep kerf opts) ⟨[], []⟩).bins),
        BinInvariant kerf b ∧ 0 ≤ b.remaining :=
      foldl_induct (fun st => ∀ b ∈ st.bins, BinInvariant kerf b ∧ 0 ≤ b.remaining)
        (packStep kerf opts) requests ⟨[], []⟩ (by simp)
        (fun st hst req hreq b hb =>
          ⟨packStep_preserves_inv (fun b2 hb2 => (hst b2 hb2).1) b hb,
           packStep_preserves_nonneg (hfits req hreq) (fun b2 hb2 => (hst b2 hb2).2) b hb⟩)
    intro b hb
    obtain ⟨hinv, hnn⟩ := h2 b hb
    unfold BinInvariant at hinv
    linarith

/-- C2, witness: a single 3000 mm request in 12000 mm stock with kerf 5:
the bin `⟨12000, 8995, [3000], false⟩` satisfies both the remaining equation
and the capacity bound. -/
theorem C2_witness :
    ((⟨12000, 8995, [3000], false⟩ : Bin).cuts.map (fun c => c + 5)).sum
      ≤ (⟨12000, 8995, [3000], false⟩ : Bin).stockLength := by
  have hpp : packingPass [⟨20, 3000, "s", "x"⟩] [⟨12000, false, none⟩] 5
      = ⟨[⟨12000, 8995, [3000], false⟩], 1, []⟩ := by
    norm_num [packingPass, packStep, bestFitAux, bestStockAux, optSkipped, idTruthy,
      fitBeats, fallbackNewStock, insertOptDesc, List.filter]
  refine (C2_bin_capacity [⟨20, 3000, "s", "x"⟩] [⟨12000, false, none⟩] 5).2 ?_ _ ?_
  · intro req hreq
    refine ⟨⟨12000, false, none⟩, by simp, rfl, ?_⟩
    have : req = ⟨20, 3000, "s", "x"⟩ := by simpa using hreq
    rw [this]
    norm_num
  · rw [hpp]
    simp

/-! ### C4: unserved requests -/

/-- C4, counterexample: with a supply pool containing no new-stock option and
an inventory offcut too short for the request, the packing pass returns
normally with no bin at all: the request is silently dropped and no error of
any kind is raised (the pass has no failure path). The claim that
`ErrUnservedRequest` is raised is false on the code. -/
theorem C4_counterexample :
    binsCutCount (packingPass [⟨20, 5000, "s", "x"⟩] [⟨3000, true, some "a-0"⟩] 0).bins = 0
    ∧ (packingPass [⟨20, 5000, "s", "x"⟩] [⟨3000, true, some "a-0"⟩] 0).bins = [] := by
  have hpp : packingPass [⟨20, 5000, "s", "x"⟩] [⟨3000, true, some "a-0"⟩] 0
      = ⟨[], 0, []⟩ := by
    norm_num [packingPass, packStep, bestFitAux, bestStockAux, optSkipped, idTruthy,
      fitBeats, fallbackNewStock, insertOptDesc, List.filter]
  rw [hpp]
  exact ⟨rfl, rfl⟩

theorem packStep_cut_count {kerf : ℚ} {opts : List AvailableStockOption}
    (hopt : ∃ o ∈ opts, o.isInventory = false) (st : PackState) (req : CutReq) :
    binsCutCount (packStep kerf opts st req).bins = binsCutCount st.bins + 1 := by
  rcases packStep_cases kerf opts st req with
    ⟨i, b0, hget, -, hbins, -⟩ | ⟨o, -, hbins, -⟩ | ⟨hno, -⟩
  · rw [hbins]
    exact binsCutCount_set hget (by simp)
  · rw [hbins]
    simp [binsCutCount]
  · exact absurd hopt hno

/-- C4 (amended): the packing pass never raises an error.  When the pool has
at least one new-stock option, every request is served: the total number of
cuts across the produced bins equals the number of requests (the fallback
opens an oversize new-stock bin if nothing fits).  Only when the pool has no
new-stock option at all can a request be dropped, silently. -/
theorem C4_every_request_served (requests : List CutReq) (opts : List AvailableStockOption)
    (kerf : ℚ) (hopt : ∃ o ∈ opts, o.isInventory = false) :
    binsCutCount (packingPass requests opts kerf).bins = requests.length := by
  suffices h : ∀ init : PackState,
      binsCutCount (requests.foldl (packStep kerf opts) init).bins
        = binsCutCount init.bins + requests.length by
    have := h ⟨[], []⟩
    simpa [packingPass, binsCutCount] using this
  induction requests with
  | nil => intro init; simp
  | cons req rest ih =>
    intro init
    simp only [List.foldl_cons]
    rw [ih (packStep kerf opts init req), packStep_cut_count hopt]
    simp only [List.length_cons]
    omega

/-- C4, witness: one request of 5000 mm with a 3000 mm new-stock option: the
fallback serves it (oversize), so exactly one cut is placed. -/
theorem C4_witness :
    binsCutCount (packingPass [⟨20, 5000, "s", "x"⟩] [⟨3000, false, none⟩] 0).bins
      = ([⟨20, 5000, "s", "x"⟩] : List CutReq).length :=
  C4_every_request_served [⟨20, 5000, "s", "x"⟩] [⟨3000, false, none⟩] 0
    ⟨⟨3000, false, none⟩, by simp, rfl⟩

/-! ### C5 groundwork: inventory ids are consumed at most once -/

theorem idTruthy_some {oid : Option String} (h : idTruthy oid = true) :
    ∃ s, oid = some s ∧ s.isEmpty = false := by
  cases oid with
  | none => simp [idTruthy] at h
  | some s => exact ⟨s, rfl, by simpa [idTruthy] using h⟩

theorem packStep_preserves_good {kerf : ℚ} {opts : List AvailableStockOption}
    {st : PackState} {req : CutReq}
    (hids : ∀ o ∈ opts, o.isInventory = true → idTruthy o.id = true)
    (h : PackGood opts st) : PackGood opts (packStep kerf opts st req) := by
  obtain ⟨hnd, hsub, hcnt⟩ := h
  rcases packStep_cases kerf opts st req with
    ⟨i, b0, hget, -, hbins, hused⟩ | ⟨o, hsel, hbins, hused⟩ | ⟨-, heq⟩
  · refine ⟨by rw [hused]; exact hnd, by rw [hused]; exact hsub, ?_⟩
    have hsame : (⟨b0.stockLength, b0.remaining - (req.len + kerf), b0.cuts ++ [req.len],
        b0.isInventory⟩ : Bin).isInventory = b0.isInventory := rfl
    rw [hbins, hused, invBinCount_set hget hsame]
    exact hcnt
  · by_cases hinv : o.isInventory = true
    · rcases hsel with ⟨hm, hskip, -⟩ | ⟨hnew, -⟩
      · have htr := hids o hm hinv
        obtain ⟨sid, hid, -⟩ := idTruthy_some htr
        have hcontains : st.usedInventoryIds.contains sid = false := by
          rw [optSkipped] at hskip
          rw [hinv, htr, hid] at hskip
          simpa using hskip
        have hnotmem : sid ∉ st.usedInventoryIds := by
          intro hmem
          simp [List.contains] at hcontains
          exact hcontains hmem
        have husedeq : (packStep kerf opts st req).usedInventoryIds
            = st.usedInventoryIds ++ [sid] := by
          rw [hused, hinv, htr, hid]
          simp [insertIfAbsent, hcontains, hnotmem]
        refine ⟨?_, ?_, ?_⟩
        · rw [husedeq]
          rw [List.nodup_append]
          exact ⟨hnd, by simp, by simpa [List.Disjoint] using fun a ha hb => hnotmem (by simpa [hb] using ha)⟩
        · rw [husedeq]
          intro id hidmem
          rcases List.mem_append.mp hidmem with hold | hnewid
          · exact hsub id hold
          · have : id = sid := by simpa using hnewid
            subst this
            exact ⟨o, hm, hinv, hid⟩
        · rw [hbins, husedeq]
          simp only [invBinCount] at hcnt ⊢
          simp [hinv, hcnt]
      · rw [hnew] at hinv
        simp at hinv
    · have hinv2 : o.isInventory = false := by
        cases hb : o.isInventory
        · rfl
        · exact absurd hb hinv
      have husedeq : (packStep kerf opts st req).usedInventoryIds = st.usedInventoryIds := by
        rw [hused, hinv2]
        simp
      refine ⟨by rw [husedeq]; exact hnd, by rw [husedeq]; exact hsub, ?_⟩
      rw [hbins, husedeq]
      simp [invBinCount, hinv2]
      exact hcnt
  · rw [heq]
    exact ⟨hnd, hsub, hcnt⟩

theorem invIds_length_le (opts : List AvailableStockOption) :
    (invIds opts).length ≤ invOptCount opts := by
  induction opts with
  | nil => simp [invIds, invOptCount]
  | cons o rest ih =>
    simp only [invIds, invOptCount, List.filterMap_cons, List.map_cons, List.sum_cons] at ih ⊢
    cases hcase : o.isInventory with
    | false => simpa [hcase] using ih
    | true =>
      cases hid : o.id with
      | none => simp only [hcase, hid, if_true]; omega
      | some sid => simp only [hcase, hid, if_true, List.length_cons]; omega

theorem packingPass_good (requests : List CutReq) (opts : List AvailableStockOption) (kerf : ℚ)
    (hids : ∀ o ∈ opts, o.isInventory = true → idTruthy o.id = true) :
    PackGood opts ⟨(packingPass requests opts kerf).bins, (packingPass requests opts kerf).usedInventoryIds⟩ := by
  have : PackGood opts (requests.foldl (packStep kerf opts) ⟨[], []⟩) :=
    foldl_induct (PackGood opts) (packStep kerf opts) requests ⟨[], []⟩
      ⟨by simp, by simp, by simp [invBinCount]⟩
      (fun st hst req _ => packStep_preserves_good hids hst)
  exact this

theorem nodup_subset_length {l cand : List String} (hnd : l.Nodup) (hsub : ∀ x ∈ l, x ∈ cand) :
    l.length ≤ cand.length := by
  have h1 : l.toFinset.card = l.length := by
    rw [List.card_toFinset, hnd.dedup]
  have h2 : l.toFinset ⊆ cand.toFinset := by
    intro x hx
    rw [List.mem_toFinset] at hx
    rw [List.mem_toFinset]
    exact hsub x hx
  calc l.length = l.toFinset.card := h1.symm
    _ ≤ cand.toFinset.card := Finset.card_le_card h2
    _ ≤ cand.length := List.toFinset_card_le cand

theorem packingPass_inventory_le (requests : List CutReq) (opts : List AvailableStockOption)
    (kerf : ℚ) (hids : ∀ o ∈ opts, o.isInventory = true → idTruthy o.id = true) :
    invBinCount (packingPass requests opts kerf).bins ≤ invOptCount opts := by
  obtain ⟨hnd, hsub, hcnt⟩ := packingPass_good requests opts kerf hids
  have hsub2 : ∀ id ∈ (packingPass requests opts kerf).usedInventoryIds, id ∈ invIds opts := by
    intro id hid
    obtain ⟨o, hm, hoi, hoid⟩ := hsub id hid
    simp only [invIds, List.mem_filterMap]
    exact ⟨o, hm, by rw [hoi, hoid]; simp⟩
  calc invBinCount (packingPass requests opts kerf).bins
      = (packingPass requests opts kerf).usedInventoryIds.length := hcnt
    _ ≤ (invIds opts).length := nodup_subset_length hnd hsub2
    _ ≤ invOptCount opts := invIds_length_le opts

/-! ### Transfer through the Monte Carlo driver -/

theorem performMonteCarlo_exists (requests : List CutReq) (opts : List AvailableStockOption)
    (settings : ProjectSettings) (rng : ℕ → ℚ) :
    ∃ reqs2, performMonteCarlo requests opts settings rng
      = (packingPass reqs2 opts settings.kerfMm).bins := by
  unfold performMonteCarlo
  have h : ∀ (l : List ℕ) (st : List Bin × ℚ),
      (∃ reqs2, st.1 = (packingPass reqs2 opts settings.kerfMm).bins) →
      ∃ reqs2, (l.foldl
          (fun best i =>
            let shuffled := shuffleRequests rng (i * (requests.length - 1)) requests
            let res := packingPass shuffled opts settings.kerfMm
            let waste := totalRemaining res.bins
            if waste < best.2 then (res.bins, waste) else best) st).1
        = (packingPass reqs2 opts settings.kerfMm).bins := by
    intro l
    induction l with
    | nil => intro st h; exact h
    | cons i rest ih =>
      intro st h
      simp only [List.foldl_cons]
      apply ih
      by_cases hw : totalRemaining (packingPass (shuffleRequests rng (i * (requests.length - 1))
          requests) opts settings.kerfMm).bins < st.2
      · simp only [if_pos hw]
        exact ⟨_, rfl⟩
      · simp only [if_neg hw]
        exact h
  exact h _ _ ⟨sortReqDesc requests, rfl⟩

theorem packingPass_all_new {requests : List CutReq} {opts : List AvailableStockOption} {kerf : ℚ}
    (hnew : ∀ o ∈ opts, o.isInventory = false) :
    ∀ b ∈ (packingPass requests opts kerf).bins, b.isInventory = false := by
  have h : ∀ b ∈ (requests.foldl (packStep kerf opts) ⟨[], []⟩).bins, b.isInventory = false := by
    refine foldl_induct (fun st => ∀ b ∈ st.bins, b.isInventory = false) (packStep kerf opts)
      requests ⟨[], []⟩ (by simp) ?_
    intro st hst req _
    rcases packStep_cases kerf opts st req with
      ⟨i, b0, hget, -, hbins, -⟩ | ⟨o, hsel, hbins, -⟩ | ⟨-, heq⟩
    · intro b hb
      rw [hbins] at hb
      rcases List.mem_or_eq_of_mem_set hb with hmem | rfl
      · exact hst b hmem
      · exact hst b0 (getElem?_mem_bins hget)
    · intro b hb
      rw [hbins] at hb
      rcases List.mem_append.mp hb with hmem | hone
      · exact hst b hmem
      · have hb1 : b = ⟨o.len, o.len - (req.len + kerf), [req.len], o.isInventory⟩ := by
          simpa using hone
        subst hb1
        rcases hsel with ⟨hm, -, -⟩ | ⟨hni, -⟩
        · exact hnew o hm
        · exact hni
    · rw [heq]
      exact hst
  exact h

theorem invBinCount_eq_zero {bins : List Bin} (h : ∀ b ∈ bins, b.isInventory = false) :
    invBinCount bins = 0 := by
  induction bins with
  | nil => simp [invBinCount]
  | cons b rest ih =>
    simp only [invBinCount, List.map_cons, List.sum_cons]
    rw [h b (by simp)]
    simp only [invBinCount] at ih
    simp [ih (fun b2 hb2 => h b2 (by simp [hb2]))]

/-! ### Sequential inventory consumption -/

theorem bestOffcutAux_spec (needed : ℚ) (used : List ℕ) :
    ∀ (l : List (ℚ × String)) (i0 : ℕ) (acc : Option (ℕ × ℚ)) (j : ℕ) (r : ℚ),
      bestOffcutAux needed used l i0 acc = some (j, r) →
      acc = some (j, r)
        ∨ ∃ k, ∃ hk : k < l.length, j = i0 + k ∧ used.contains j = false
            ∧ r = (l.get ⟨k, hk⟩).1 - needed ∧ 0 ≤ r := by
  intro l
  induction l with
  | nil => intro i0 acc j r h; exact Or.inl h
  | cons oc rest ih =>
    intro i0 acc j r h
    simp only [bestOffcutAux] at h
    by_cases hused : used.contains i0
    · rw [if_pos hused] at h
      rcases ih (i0 + 1) acc j r h with hacc | ⟨k, hk, hj, hcu, hr, hnn⟩
      · exact Or.inl hacc
      · exact Or.inr ⟨k + 1, by simpa using hk, by omega, by simpa [Nat.add_comm, Nat.add_assoc,
          Nat.add_left_comm] using hcu, by simpa using hr, hnn⟩
    · rw [if_neg hused] at h
      rcases ih (i0 + 1) _ j r h with hacc | ⟨k, hk, hj, hcu, hr, hnn⟩
      · by_cases hb : fitBeats (oc.1 - needed) acc
        · rw [if_pos hb] at hacc
          obtain ⟨h1, h2⟩ := Prod.mk.inj (Option.some.inj hacc)
          refine Or.inr ⟨0, by simp, by omega, ?_, ?_, ?_⟩
          · rw [← h1]
            simpa using hused
          · simp [← h2]
          · rw [← h2]; exact fitBeats_nonneg hb
        · rw [if_neg hb] at hacc
          exact Or.inl hacc
      · exact Or.inr ⟨k + 1, by simpa using hk, by omega, by simpa [Nat.add_comm, Nat.add_assoc,
          Nat.add_left_comm] using hcu, by simpa using hr, hnn⟩

theorem seqStep_preserves_good {kerf : ℚ} {offcuts : List (ℚ × String)}
    {st : SeqState} {req : CutReq} (h : SeqGood kerf offcuts st) :
    SeqGood kerf offcuts (seqStep kerf offcuts st req) := by
  obtain ⟨hnd, hlt, hlen, hbins⟩ := h
  simp only [seqStep]
  cases hfit : bestFitAux (req.len + kerf) st.inventoryBins 0 none with
  | some p =>
    obtain ⟨i, r⟩ := p
    obtain ⟨hk, hr, hnn⟩ := bestFitAux_top hfit
    have hget : st.inventoryBins[i]? = some (st.inventoryBins.get ⟨i, hk⟩) := by
      rw [List.getElem?_eq_some_iff]
      exact ⟨hk, by simp⟩
    dsimp only
    rw [hget]
    dsimp only
    refine ⟨hnd, hlt, by simpa using hlen, ?_⟩
    intro b hb
    rcases List.mem_or_eq_of_mem_set hb with hmem | rfl
    · exact hbins b hmem
    · have hb0 := hbins _ (getElem?_mem_bins hget)
      refine ⟨hb0.1, ?_⟩
      have := hb0.2
      unfold BinInvariant at this ⊢
      simp only [List.map_append, List.sum_append, List.map_cons, List.sum_cons,
        List.map_nil, List.sum_nil]
      rw [this]
      ring
  | none =>
    dsimp only
    cases hsel : bestOffcutAux (req.len + kerf) st.usedOffcutIndices offcuts 0 none with
    | some p =>
      obtain ⟨i, r⟩ := p
      rcases bestOffcutAux_spec (req.len + kerf) st.usedOffcutIndices offcuts 0 none i r hsel with
        hacc | ⟨k, hk, hj, hcu, hr, hnn⟩
      · simp at hacc
      · have hieq : i = k := by omega
        subst hieq
        have hget : offcuts[i]? = some (offcuts.get ⟨i, hk⟩) := by
          rw [List.getElem?_eq_some_iff]
          exact ⟨hk, by simp⟩
        dsimp only
        rw [hget]
        dsimp only
        have hnotmem : i ∉ st.usedOffcutIndices := by
          intro hmem
          simp [List.contains] at hcu
          exact hcu hmem
        refine ⟨?_, ?_, ?_, ?_⟩
        · rw [List.nodup_append]
          refine ⟨hnd, by simp, ?_⟩
          intro a ha hb2
          have : a = i := by simpa using hb2
          subst this
          exact hnotmem ha
        · intro j hj2
          rcases List.mem_append.mp hj2 with hold | hnew2
          · exact hlt j hold
          · have : j = i := by simpa using hnew2
            subst this
            exact hk
        · simp [hlen]
        · intro b hb
          rcases List.mem_append.mp hb with hmem | hone
          · exact hbins b hmem
          · have hb1 : b = ⟨(offcuts.get ⟨i, hk⟩).1, r, [req.len], true⟩ := by
              simpa using hone
            subst hb1
            refine ⟨rfl, ?_⟩
            unfold BinInvariant
            simp [hr]
    | none =>
      dsimp only
      exact ⟨hnd, hlt, hlen, hbins⟩

theorem consumeInventorySequential_spec (requests : List CutReq)
    (inventory : List OffcutInventoryItem) (settings : ProjectSettings) :
    (consumeInventorySequential requests inventory settings).1.length
        ≤ (sortOffcutsAsc (expandInventory inventory)).length
    ∧ (∀ b ∈ (consumeInventorySequential requests inventory settings).1,
        b.isInventory = true ∧ BinInvariant settings.kerfMm b) := by
  have h : SeqGood settings.kerfMm (sortOffcutsAsc (expandInventory inventory))
      ((sortReqDesc requests).foldl
        (seqStep settings.kerfMm (sortOffcutsAsc (expandInventory inventory))) ⟨[], [], []⟩) :=
    foldl_induct (SeqGood settings.kerfMm (sortOffcutsAsc (expandInventory inventory)))
      (seqStep settings.kerfMm (sortOffcutsAsc (expandInventory inventory)))
      (sortReqDesc requests) ⟨[], [], []⟩
      ⟨by simp, by simp, by simp, by simp⟩
      (fun st hst req _ => seqStep_preserves_good hst)
  obtain ⟨hnd, hlt, hlen, hbins⟩ := h
  constructor
  · rw [show (consumeInventorySequential requests inventory settings).1
        = ((sortReqDesc requests).foldl
            (seqStep settings.kerfMm (sortOffcutsAsc (expandInventory inventory)))
            ⟨[], [], []⟩).inventoryBins from rfl]
    rw [hlen]
    have hsubnat : ∀ i ∈ ((sortReqDesc requests).foldl
        (seqStep settings.kerfMm (sortOffcutsAsc (expandInventory inventory)))
        ⟨[], [], []⟩).usedOffcutIndices,
        i ∈ List.range (sortOffcutsAsc (expandInventory inventory)).length := by
      intro i hi
      rw [List.mem_range]
      exact hlt i hi
    calc ((sortReqDesc requests).foldl
          (seqStep settings.kerfMm (sortOffcutsAsc (expandInventory inventory)))
          ⟨[], [], []⟩).usedOffcutIndices.length
        ≤ (List.range (sortOffcutsAsc (expandInventory inventory)).length).length := by
          have h1 : (((sortReqDesc requests).foldl
              (seqStep settings.kerfMm (sortOffcutsAsc (expandInventory inventory)))
              ⟨[], [], []⟩).usedOffcutIndices).toFinset.card
              = ((sortReqDesc requests).foldl
                  (seqStep settings.kerfMm (sortOffcutsAsc (expandInventory inventory)))
                  ⟨[], [], []⟩).usedOffcutIndices.length := by
            rw [List.card_toFinset, hnd.dedup]
          rw [← h1]
          calc _ ≤ (List.range (sortOffcutsAsc (expandInventory inventory)).length).toFinset.card :=
                Finset.card_le_card (by
                  intro x hx
                  rw [List.mem_toFinset] at hx
                  rw [List.mem_toFinset]
                  exact hsubnat x hx)
            _ ≤ _ := List.toFinset_card_le _
      _ = (sortOffcutsAsc (expandInventory inventory)).length := by simp
  · exact hbins

theorem expandInventory_length (inventory : List OffcutInventoryItem) :
    (expandInventory inventory).length = (inventory.map (fun i => i.quantity)).sum := by
  suffices h : ∀ (l : List OffcutInventoryItem) (acc : List (ℚ × String)),
      (l.foldl (fun acc2 inv =>
        acc2 ++ (List.range inv.quantity).map (fun i => (inv.lengthMm, inv.id ++ "-" ++ toString i)))
        acc).length = acc.length + (l.map (fun i => i.quantity)).sum by
    simpa [expandInventory] using h inventory []
  intro l
  induction l with
  | nil => intro acc; simp
  | cons inv rest ih =>
    intro acc
    simp only [List.foldl_cons, List.map_cons, List.sum_cons]
    rw [ih]
    simp
    omega

theorem idTruthy_dashed (a b : String) : idTruthy (some (a ++ "-" ++ b)) = true := by
  simp only [idTruthy]
  cases hie : (a ++ "-" ++ b).isEmpty with
  | false => simp
  | true =>
    have heq := (String.isEmpty_iff _).mp hie
    have hlen := congrArg String.length heq
    simp only [String.length_append] at hlen
    have hdash : ("-" : String).length = 1 := by decide
    rw [hdash] at hlen
    simp at hlen

/-! ### Inventory bound and bin invariant of one diameter group -/

theorem invBinCount_le_length (bins : List Bin) : invBinCount bins ≤ bins.length := by
  induction bins with
  | nil => simp [invBinCount]
  | cons b rest ih =>
    simp only [invBinCount, List.map_cons, List.sum_cons, List.length_cons]
    simp only [invBinCount] at ih
    split_ifs <;> omega

theorem invBinCount_append (l1 l2 : List Bin) :
    invBinCount (l1 ++ l2) = invBinCount l1 + invBinCount l2 := by
  simp [invBinCount]

theorem invOptCount_new_opts (l : List ℚ) :
    invOptCount (l.map (fun s => (⟨s, false, none⟩ : AvailableStockOption))) = 0 := by
  induction l with
  | nil => simp [invOptCount]
  | cons x rest ih => simpa [invOptCount] using ih

theorem invOptCount_inv_opts (l : List (ℚ × String)) :
    invOptCount (l.map (fun oc => (⟨oc.1, true, some oc.2⟩ : AvailableStockOption))) = l.length := by
  induction l with
  | nil => simp [invOptCount]
  | cons x rest ih =>
    simp [invOptCount] at ih ⊢
    omega

theorem invOptCount_append (l1 l2 : List AvailableStockOption) :
    invOptCount (l1 ++ l2) = invOptCount l1 + invOptCount l2 := by
  simp [invOptCount]

theorem expandInventory_dashed (inventory : List OffcutInventoryItem) :
    ∀ oc ∈ expandInventory inventory, ∃ a b, oc.2 = a ++ "-" ++ b := by
  suffices h : ∀ (l : List OffcutInventoryItem) (acc : List (ℚ × String)),
      (∀ oc ∈ acc, ∃ a b, oc.2 = a ++ "-" ++ b) →
      ∀ oc ∈ (l.foldl (fun acc2 inv =>
          acc2 ++ (List.range inv.quantity).map
            (fun i => (inv.lengthMm, inv.id ++ "-" ++ toString i))) acc),
        ∃ a b, oc.2 = a ++ "-" ++ b by
    exact h inventory [] (by simp)
  intro l
  induction l with
  | nil => intro acc hacc; exact hacc
  | cons inv rest ih =>
    intro acc hacc
    simp only [List.foldl_cons]
    apply ih
    intro oc hoc
    rcases List.mem_append.mp hoc with hold | hnew
    · exact hacc oc hold
    · obtain ⟨i, -, hoc2⟩ := List.mem_map.mp hnew
      exact ⟨inv.id, toString i, by rw [← hoc2]⟩

theorem combined_ids_truthy (stockOptions : List ℚ) (inventory : List OffcutInventoryItem) :
    ∀ o ∈ (stockOptions.map (fun s => (⟨s, false, none⟩ : AvailableStockOption))
        ++ (expandInventory inventory).map (fun oc => (⟨oc.1, true, some oc.2⟩ : AvailableStockOption))),
      o.isInventory = true → idTruthy o.id = true := by
  intro o ho hinv
  rcases List.mem_append.mp ho with hnew | hold
  · obtain ⟨s, -, hs⟩ := List.mem_map.mp hnew
    rw [← hs] at hinv
    simp at hinv
  · obtain ⟨oc, hoc, hs⟩ := List.mem_map.mp hold
    obtain ⟨a, b, hab⟩ := expandInventory_dashed inventory oc hoc
    rw [← hs]
    simp only
    rw [hab]
    exact idTruthy_dashed a b

theorem optimizeDiaGroup_inventory_bound (requests : List CutReq) (stockOptions : List ℚ)
    (settings : ProjectSettings) (inventory : List OffcutInventoryItem) (rng : ℕ → ℚ) :
    invBinCount (optimizeDiaGroup requests stockOptions settings inventory rng)
      ≤ (inventory.map (fun i => i.quantity)).sum := by
  have hseqlen : (consumeInventorySequential requests inventory settings).1.length
      ≤ (inventory.map (fun i => i.quantity)).sum := by
    calc (consumeInventorySequential requests inventory settings).1.length
        ≤ (sortOffcutsAsc (expandInventory inventory)).length :=
          (consumeInventorySequential_spec requests inventory settings).1
      _ = (expandInventory inventory).length :=
          (sortOffcutsAsc_perm (expandInventory inventory)).length_eq
      _ = (inventory.map (fun i => i.quantity)).sum := expandInventory_length inventory
  simp only [optimizeDiaGroup]
  split_ifs with hstrat hrem
  · exact le_trans (invBinCount_le_length _) hseqlen
  · obtain ⟨reqs2, hmc⟩ := performMonteCarlo_exists
      (consumeInventorySequential requests inventory settings).2
      (stockOptions.map (fun s => ⟨s, false, none⟩)) settings rng
    rw [invBinCount_append, hmc]
    have hzero : invBinCount (packingPass reqs2
        (stockOptions.map (fun s => ⟨s, false, none⟩)) settings.kerfMm).bins = 0 :=
      invBinCount_eq_zero (packingPass_all_new (by
        intro o ho
        obtain ⟨s, -, hs⟩ := List.mem_map.mp ho
        rw [← hs]))
    rw [hzero]
    simpa using le_trans (invBinCount_le_length _) hseqlen
  · obtain ⟨reqs2, hmc⟩ := performMonteCarlo_exists requests
      (stockOptions.map (fun s => ⟨s, false, none⟩)
        ++ (expandInventory inventory).map (fun oc => ⟨oc.1, true, some oc.2⟩)) settings rng
    rw [hmc]
    calc invBinCount (packingPass reqs2 _ settings.kerfMm).bins
        ≤ invOptCount (stockOptions.map (fun s => ⟨s, false, none⟩)
            ++ (expandInventory inventory).map (fun oc => ⟨oc.1, true, some oc.2⟩)) :=
          packingPass_inventory_le reqs2 _ settings.kerfMm
            (combined_ids_truthy stockOptions inventory)
      _ = (expandInventory inventory).length := by
          rw [invOptCount_append, invOptCount_new_opts, invOptCount_inv_opts]
          simp
      _ = (inventory.map (fun i => i.quantity)).sum := expandInventory_length inventory

theorem optimizeDiaGroup_bin_inv (requests : List CutReq) (stockOptions : List ℚ)
    (settings : ProjectSettings) (inventory : List OffcutInventoryItem) (rng : ℕ → ℚ) :
    ∀ b ∈ optimizeDiaGroup requests stockOptions settings inventory rng,
      BinInvariant settings.kerfMm b := by
  simp only [optimizeDiaGroup]
  split_ifs with hstrat hrem
  · exact fun b hb => ((consumeInventorySequential_spec requests inventory settings).2 b hb).2
  · obtain ⟨reqs2, hmc⟩ := performMonteCarlo_exists
      (consumeInventorySequential requests inventory settings).2
      (stockOptions.map (fun s => ⟨s, false, none⟩)) settings rng
    rw [hmc]
    intro b hb
    rcases List.mem_append.mp hb with hseq | hpp
    · exact ((consumeInventorySequential_spec requests inventory settings).2 b hseq).2
    · exact packingPass_bin_inv reqs2 _ settings.kerfMm b hpp
  · obtain ⟨reqs2, hmc⟩ := performMonteCarlo_exists requests
      (stockOptions.map (fun s => ⟨s, false, none⟩)
        ++ (expandInventory inventory).map (fun oc => ⟨oc.1, true, some oc.2⟩)) settings rng
    rw [hmc]
    exact packingPass_bin_inv reqs2 _ settings.kerfMm

/-! ### The display-pattern map -/

theorem patternKey_inv_inj {b1 b2 : Bool} {s1 s2 : ℚ} {c1 c2 : List ℚ}
    (h : patternKey b1 s1 c1 = patternKey b2 s2 c2) : b1 = b2 := by
  cases b1 <;> cases b2 <;> first
    | rfl
    | · exfalso
        unfold patternKey at h
        have hd := congrArg String.data h
        simp only [Bool.false_eq_true, if_false, if_true, String.data_append,
          List.append_assoc] at hd
        simp at hd

theorem sortQDesc_map_sum (kerf : ℚ) (l : List ℚ) :
    ((sortQDesc l).map (fun c => c + kerf)).sum = (l.map (fun c => c + kerf)).sum :=
  ((sortQDesc_perm l).map (fun c => c + kerf)).sum_eq

theorem no_match_map_id {m : List (String × PatternVal)} {key : String}
    (h : ∀ kv ∈ m, (kv.1 == key) = false) :
    m.map (fun kv => if kv.1 == key then (kv.1, { kv.2 with count := kv.2.count + 1 }) else kv)
      = m := by
  induction m with
  | nil => simp
  | cons kv rest ih =>
    simp only [List.map_cons, h kv (by simp), Bool.false_eq_true, if_false, List.cons.injEq]
    exact ⟨trivial, ih (fun kv2 hkv2 => h kv2 (by simp [hkv2]))⟩

theorem invPatCount_bump (b : Bin) :
    ∀ (m : List (String × PatternVal)),
      (∀ kv ∈ m, kv.1 = patternKey kv.2.isInventory kv.2.stock kv.2.cuts) →
      ((m.map (fun kv => kv.1)).Nodup) →
      (m.any (fun kv => kv.1 == patternKey b.isInventory b.stockLength (sortQDesc b.cuts))) = true →
      invPatCount (m.map (fun kv =>
          if kv.1 == patternKey b.isInventory b.stockLength (sortQDesc b.cuts)
          then (kv.1, { kv.2 with count := kv.2.count + 1 }) else kv))
        = invPatCount m + (if b.isInventory then 1 else 0) := by
  intro m
  induction m with
  | nil => intro _ _ hany; simp at hany
  | cons kv rest ih =>
    intro hcons hnd hany
    by_cases hk : (kv.1 == patternKey b.isInventory b.stockLength (sortQDesc b.cuts)) = true
    · have hkey_eq : kv.1 = patternKey b.isInventory b.stockLength (sortQDesc b.cuts) := by
        simpa using hk
      have hflag : kv.2.isInventory = b.isInventory := by
        apply patternKey_inv_inj
        rw [← hcons kv (by simp), hkey_eq]
      have htail : ∀ kv2 ∈ rest,
          (kv2.1 == patternKey b.isInventory b.stockLength (sortQDesc b.cuts)) = false := by
        intro kv2 hkv2
        have hne : kv2.1 ≠ kv.1 := by
          intro habs
          have hndk := hnd
          simp only [List.map_cons, List.nodup_cons] at hndk
          exact hndk.1 (habs ▸ List.mem_map_of_mem (fun kv => kv.1) hkv2)
        simp only [beq_eq_false_iff_ne, ne_eq]
        rw [hkey_eq] at hne
        exact hne
      simp only [List.map_cons, hk, if_true, invPatCount, List.sum_cons]
      rw [show (rest.map (fun kv =>
          if kv.1 == patternKey b.isInventory b.stockLength (sortQDesc b.cuts)
          then (kv.1, { kv.2 with count := kv.2.count + 1 }) else kv)) = rest
        from no_match_map_id htail]
      simp only [invPatCount] at *
      rw [hflag]
      cases b.isInventory <;> simp <;> omega
    · have hany2 : (rest.any (fun kv =>
          kv.1 == patternKey b.isInventory b.stockLength (sortQDesc b.cuts))) = true := by
        simp only [List.any_cons, hk, Bool.false_or] at hany
        exact hany
      have hcons2 : ∀ kv2 ∈ rest, kv2.1 = patternKey kv2.2.isInventory kv2.2.stock kv2.2.cuts :=
        fun kv2 hkv2 => hcons kv2 (by simp [hkv2])
      have hnd2 : (rest.map (fun kv => kv.1)).Nodup := by
        simp only [List.map_cons, List.nodup_cons] at hnd
        exact hnd.2
      have := ih hcons2 hnd2 hany2
      simp only [List.map_cons, hk, Bool.false_eq_true, if_false, invPatCount, List.sum_cons]
      simp only [invPatCount] at this
      omega

theorem insertPattern_spec {kerf : ℚ} {m : List (String × PatternVal)} {b : Bin}
    (hb : BinInvariant kerf b) (hm : PatConsistent kerf m) :
    PatConsistent kerf (insertPattern m b)
    ∧ invPatCount (insertPattern m b) = invPatCount m + (if b.isInventory then 1 else 0) := by
  obtain ⟨hvals, hnd⟩ := hm
  unfold insertPattern
  by_cases hany : (m.any (fun kv =>
      kv.1 == patternKey b.isInventory b.stockLength (sortQDesc b.cuts))) = true
  · rw [if_pos hany]
    refine ⟨⟨?_, ?_⟩, ?_⟩
    · intro kv hkv
      obtain ⟨kv0, hkv0, hkv0e⟩ := List.mem_map.mp hkv
      by_cases hk : (kv0.1 == patternKey b.isInventory b.stockLength (sortQDesc b.cuts)) = true
      · rw [if_pos hk] at hkv0e
        rw [← hkv0e]
        exact hvals kv0 hkv0
      · rw [if_neg (by simpa using hk)] at hkv0e
        rw [← hkv0e]
        exact hvals kv0 hkv0
    · have : (m.map (fun kv =>
          if kv.1 == patternKey b.isInventory b.stockLength (sortQDesc b.cuts)
          then (kv.1, { kv.2 with count := kv.2.count + 1 }) else kv)).map (fun kv => kv.1)
          = m.map (fun kv => kv.1) := by
        rw [List.map_map]
        apply List.map_congr_left
        intro kv _
        dsimp only [Function.comp]
        split_ifs <;> rfl
      rw [this]
      exact hnd
    · exact invPatCount_bump b m (fun kv hkv => (hvals kv hkv).1) hnd hany
  · rw [if_neg hany]
    have hnotany : ∀ kv ∈ m,
        (kv.1 == patternKey b.isInventory b.stockLength (sortQDesc b.cuts)) = false := by
      intro kv hkv
      by_contra hk
      have : (m.any (fun kv =>
          kv.1 == patternKey b.isInventory b.stockLength (sortQDesc b.cuts))) = true :=
        List.any_eq_true.mpr ⟨kv, hkv, by simpa using hk⟩
      exact hany this
    refine ⟨⟨?_, ?_⟩, ?_⟩
    · intro kv hkv
      rcases List.mem_append.mp hkv with hold | hnew
      · exact hvals kv hold
      · have hkv2 : kv = (patternKey b.isInventory b.stockLength (sortQDesc b.cuts),
            ⟨1, sortQDesc b.cuts, max 0 b.remaining, b.stockLength, b.isInventory⟩) := by
          simpa using hnew
        subst hkv2
        refine ⟨rfl, ?_⟩
        simp only
        rw [sortQDesc_map_sum]
        unfold BinInvariant at hb
        rw [← hb]
    · rw [List.map_append]
      rw [List.nodup_append]
      refine ⟨hnd, by simp, ?_⟩
      intro k hk hknew
      have hkeq : k = patternKey b.isInventory b.stockLength (sortQDesc b.cuts) := by
        simpa using hknew
      subst hkeq
      obtain ⟨kv, hkv, hkve⟩ := List.mem_map.mp hk
      have := hnotany kv hkv
      rw [hkve] at this
      simp at this
    · simp [invPatCount]

theorem foldl_insertPattern_spec (kerf : ℚ) :
    ∀ (bins : List Bin) (m : List (String × PatternVal)),
      (∀ b ∈ bins, BinInvariant kerf b) → PatConsistent kerf m →
      PatConsistent kerf (bins.foldl insertPattern m)
      ∧ invPatCount (bins.foldl insertPattern m) = invPatCount m + invBinCount bins := by
  intro bins
  induction bins with
  | nil => intro m _ hm; exact ⟨hm, by simp [invBinCount]⟩
  | cons b rest ih =>
    intro m hbins hm
    simp only [List.foldl_cons]
    obtain ⟨hc1, hc2⟩ := insertPattern_spec (hbins b (by simp)) hm
    obtain ⟨hd1, hd2⟩ := ih (insertPattern m b) (fun b2 hb2 => hbins b2 (by simp [hb2])) hc1
    refine ⟨hd1, ?_⟩
    rw [hd2, hc2]
    simp only [invBinCount, List.map_cons, List.sum_cons]
    cases hbi : b.isInventory <;> simp [hbi] <;> omega

theorem patternsOf_spec {kerf : ℚ} {bins : List Bin}
    (hbins : ∀ b ∈ bins, BinInvariant kerf b) :
    (∀ v ∈ patternsOf bins,
        v.remaining = max 0 (v.stock - (v.cuts.map (fun c => c + kerf)).sum))
    ∧ ((patternsOf bins).map (fun v => if v.isInventory then v.count else 0)).sum
        = invBinCount bins := by
  obtain ⟨⟨hvals, -⟩, hcount⟩ := foldl_insertPattern_spec kerf bins [] hbins ⟨by simp, by simp⟩
  constructor
  · intro v hv
    obtain ⟨kv, hkv, hkve⟩ := List.mem_map.mp hv
    rw [← hkve]
    exact (hvals kv hkv).2
  · unfold patternsOf
    rw [List.map_map]
    have h2 : ((bins.foldl insertPattern []).map
          ((fun v => if v.isInventory then v.count else 0) ∘ (fun kv => kv.2))).sum
        = invPatCount (bins.foldl insertPattern []) := rfl
    rw [h2, hcount]
    simp [invPatCount]

theorem diaPlanItems_spec (dia : ℚ) (settings : ProjectSettings) (bins : List Bin)
    (hbins : ∀ b ∈ bins, BinInvariant settings.kerfMm b) :
    invPlanCount (diaPlanItems dia settings bins) = invBinCount bins
    ∧ ∀ item ∈ diaPlanItems dia settings bins,
        ∃ r : ℚ, 0 ≤ r
          ∧ r = max 0 (item.stockLength - (item.cuts.map (fun c => c + settings.kerfMm)).sum)
          ∧ ((settings.minLeftoverMm ≤ r ∧ item.offcut = r ∧ item.waste = 0)
             ∨ (r < settings.minLeftoverMm ∧ item.offcut = 0 ∧ item.waste = r)) := by
  obtain ⟨hrem, hsum⟩ := patternsOf_spec hbins
  constructor
  · unfold invPlanCount diaPlanItems
    rw [List.map_map]
    rw [← hsum]
    apply congrArg
    apply List.map_congr_left
    intro v _
    simp only [Function.comp]
    by_cases hv : v.isInventory = true
    · simp [hv]
    · simp [hv]

  · intro item hitem
    obtain ⟨v, hv, hve⟩ := List.mem_map.mp hitem
    refine ⟨v.remaining, ?_, ?_, ?_⟩
    · rw [hrem v hv]
      exact le_max_left 0 _
    · rw [← hve]
      simp only
      exact hrem v hv
    · rw [← hve]
      simp only
      by_cases hlt : settings.minLeftoverMm ≤ v.remaining
      · left
        simp [hlt]
      · right
        exact ⟨not_le.mp hlt, by simp [hlt], by simp [hlt]⟩

/-! ### C5: inventory uniqueness across the cutting plan -/

theorem containsQ_eq_true_iff (x : ℚ) : ∀ l : List ℚ, containsQ x l = true ↔ x ∈ l := by
  intro l
  induction l with
  | nil => simp [containsQ]
  | cons y rest ih =>
    simp only [containsQ]
    by_cases h : y = x
    · simp [h]
    · rw [if_neg h, ih]
      constructor
      · exact fun hm => List.mem_cons_of_mem y hm
      · intro hm
        rcases List.mem_cons.mp hm with he | hm2
        · exact absurd he.symm h
        · exact hm2

theorem dedupFirstQ_spec : ∀ (l seen : List ℚ),
    (dedupFirstQ seen l).Nodup ∧ ∀ x ∈ dedupFirstQ seen l, x ∉ seen := by
  intro l
  induction l with
  | nil => intro seen; simp [dedupFirstQ]
  | cons a rest ih =>
    intro seen
    simp only [dedupFirstQ]
    by_cases hc : containsQ a seen = true
    · rw [if_pos hc]
      exact ih seen
    · rw [if_neg hc]
      obtain ⟨hnd, hout⟩ := ih (seen ++ [a])
      refine ⟨List.nodup_cons.mpr ⟨?_, hnd⟩, ?_⟩
      · intro hmem
        have := hout a hmem
        simp at this
      · intro x hx
        rcases List.mem_cons.mp hx with he | hm
        · subst he
          intro habs
          exact hc ((containsQ_eq_true_iff x seen).mpr habs)
        · intro habs
          exact hout x hm (by simp [habs])

theorem uniqueDias_nodup (requests : List CutReq) : (uniqueDias requests).Nodup := by
  unfold uniqueDias
  exact ((sortQAsc_perm _).nodup_iff).mpr (dedupFirstQ_spec _ []).1

theorem sum_map_add_nat {α : Type} (l : List α) (f g : α → ℕ) :
    (l.map (fun x => f x + g x)).sum = (l.map f).sum + (l.map g).sum := by
  induction l with
  | nil => simp
  | cons a rest ih =>
    simp only [List.map_cons, List.sum_cons, ih]
    omega

theorem indicator_sum_zero {dias : List ℚ} {x : ℚ} {q : ℕ} (h : x ∉ dias) :
    (dias.map (fun d => if x = d then q else 0)).sum = 0 := by
  induction dias with
  | nil => simp
  | cons d rest ih =>
    simp only [List.map_cons, List.sum_cons]
    rw [if_neg (by intro he; exact h (by rw [he]; exact List.mem_cons_self d rest))]
    rw [ih (fun hm => h (List.mem_cons_of_mem d hm))]

theorem indicator_sum_le (x : ℚ) (q : ℕ) :
    ∀ {dias : List ℚ}, dias.Nodup → (dias.map (fun d => if x = d then q else 0)).sum ≤ q := by
  intro dias
  induction dias with
  | nil => intro _; simp
  | cons d rest ih =>
    intro hnd
    obtain ⟨hnotin, hnd2⟩ := List.nodup_cons.mp hnd
    simp only [List.map_cons, List.sum_cons]
    by_cases he : x = d
    · subst he
      rw [if_pos rfl, indicator_sum_zero hnotin]
      omega
    · rw [if_neg he]
      simpa using ih hnd2

theorem sum_invOfDia_le {dias : List ℚ} (hnd : dias.Nodup) :
    ∀ inventory : List OffcutInventoryItem,
      (dias.map (fun d => ((invOfDia d inventory).map (fun i => i.quantity)).sum)).sum
        ≤ (inventory.map (fun i => i.quantity)).sum := by
  intro inventory
  induction inventory with
  | nil =>
    have h0 : (dias.map (fun d =>
        ((invOfDia d ([] : List OffcutInventoryItem)).map (fun i => i.quantity)).sum)).sum = 0 := by
      apply List.sum_eq_zero
      intro x hx
      obtain ⟨d, -, hd⟩ := List.mem_map.mp hx
      rw [← hd]
      rfl
    simp [h0]
  | cons i rest ih =>
    have hstep : (dias.map (fun d =>
          ((invOfDia d (i :: rest)).map (fun j => j.quantity)).sum)).sum
        = (dias.map (fun d => if i.dia = d then i.quantity else 0)).sum
          + (dias.map (fun d => ((invOfDia d rest).map (fun j => j.quantity)).sum)).sum := by
      rw [← sum_map_add_nat]
      apply congrArg
      apply List.map_congr_left
      intro d _
      simp only [invOfDia]
      by_cases hd : i.dia = d
      · rw [if_pos hd, if_pos hd]
        simp
      · rw [if_neg hd, if_neg hd]
        omega
    rw [hstep]
    simp only [List.map_cons, List.sum_cons]
    have h1 := indicator_sum_le i.dia i.quantity hnd
    omega

theorem invPlanCount_append (l1 l2 : List CuttingPlanItem) :
    invPlanCount (l1 ++ l2) = invPlanCount l1 + invPlanCount l2 := by
  simp [invPlanCount]

theorem foldl_append_invPlanCount (settings : ProjectSettings) :
    ∀ (groups : List (ℚ × List Bin)) (init : List CuttingPlanItem),
      invPlanCount (groups.foldl (fun acc g => acc ++ diaPlanItems g.1 settings g.2) init)
        = invPlanCount init
          + (groups.map (fun g => invPlanCount (diaPlanItems g.1 settings g.2))).sum := by
  intro groups
  induction groups with
  | nil => intro init; simp
  | cons g rest ih =>
    intro init
    simp only [List.foldl_cons, List.map_cons, List.sum_cons]
    rw [ih, invPlanCount_append]
    omega

/-- C5: across the cutting plan of one solve, inventory units are consumed at
most once each — the consumed-id list of any packing pass whose inventory
options carry truthy ids is duplicate-free — and the total count of
inventory-sourced patterns of the returned cutting plan is at most the total
inventory quantity available, under every strategy. -/
theorem C5_inventory_uniqueness (splicePlan : List SplicePlanItem)
    (directPieces : List DirectPiece) (runs : List BarRun) (catalog : List StockCatalogItem)
    (settings : ProjectSettings) (inventory : List OffcutInventoryItem) (rng : ℕ → ℚ) :
    (∀ (requests : List CutReq) (opts : List AvailableStockOption) (kerf : ℚ),
        (∀ o ∈ opts, o.isInventory = true → idTruthy o.id = true) →
        (packingPass requests opts kerf).usedInventoryIds.Nodup)
    ∧ invPlanCount (optimizeCutting splicePlan directPieces runs catalog settings
        inventory rng).cuttingPlan ≤ (inventory.map (fun i => i.quantity)).sum := by
  constructor
  · intro requests opts kerf hids
    exact (packingPass_good requests opts kerf hids).1
  · have hplan : (optimizeCutting splicePlan directPieces runs catalog settings
        inventory rng).cuttingPlan
      = (diaGroups (allRequestsOf splicePlan runs directPieces) catalog settings
          inventory rng).foldl (fun acc g => acc ++ diaPlanItems g.1 settings g.2) [] := rfl
    rw [hplan, foldl_append_invPlanCount]
    have hz : invPlanCount ([] : List CuttingPlanItem) = 0 := rfl
    rw [hz, Nat.zero_add]
    have hgroups : ((diaGroups (allRequestsOf splicePlan runs directPieces) catalog settings
          inventory rng).map (fun g => invPlanCount (diaPlanItems g.1 settings g.2))).sum
        = ((uniqueDias (allRequestsOf splicePlan runs directPieces)).map (fun dia =>
            invBinCount (optimizeDiaGroup
              (reqsOfDia dia (allRequestsOf splicePlan runs directPieces))
              (getStockOptions dia catalog) settings (invOfDia dia inventory) rng))).sum := by
      unfold diaGroups
      rw [List.map_map]
      apply congrArg
      apply List.map_congr_left
      intro dia _
      simp only [Function.comp]
      exact (diaPlanItems_spec dia settings _ (optimizeDiaGroup_bin_inv _ _ _ _ _)).1
    rw [hgroups]
    calc ((uniqueDias (allRequestsOf splicePlan runs directPieces)).map (fun dia =>
            invBinCount (optimizeDiaGroup
              (reqsOfDia dia (allRequestsOf splicePlan runs directPieces))
              (getStockOptions dia catalog) settings (invOfDia dia inventory) rng))).sum
        ≤ ((uniqueDias (allRequestsOf splicePlan runs directPieces)).map (fun dia =>
            ((invOfDia dia inventory).map (fun i => i.quantity)).sum)).sum := by
          apply List.sum_le_sum
          intro dia _
          exact optimizeDiaGroup_inventory_bound _ _ _ _ _
      _ ≤ (inventory.map (fun i => i.quantity)).sum :=
          sum_invOfDia_le (uniqueDias_nodup _) inventory

/-- C5, witness: the consumed-id list of a concrete one-request pass is
duplicate-free, and the plan built from one 3000 mm direct piece with an
inventory item of quantity 2 consumes at most 2 inventory units. -/
theorem C5_witness :
    (packingPass [⟨16, 3000, "s", "x"⟩] [⟨12000, true, some "A-0"⟩] 5).usedInventoryIds.Nodup
    ∧ invPlanCount (optimizeCutting [] [directC6] [] catC6 settingsC6
        [⟨"A", 16, 6000, 2⟩] rngZero).cuttingPlan ≤ 2 := by
  obtain ⟨h1, h2⟩ := C5_inventory_uniqueness [] [directC6] [] catC6 settingsC6
    [⟨"A", 16, 6000, 2⟩] rngZero
  refine ⟨h1 [⟨16, 3000, "s", "x"⟩] [⟨12000, true, some "A-0"⟩] 5 ?_, ?_⟩
  · intro o ho hinv
    have ho2 : o = ⟨12000, true, some "A-0"⟩ := by simpa using ho
    rw [ho2]
    decide
  · simpa using h2

/-! ### C6: offcut/waste dichotomy of the cutting plan -/

theorem mem_foldl_append (settings : ProjectSettings) :
    ∀ (groups : List (ℚ × List Bin)) (init : List CuttingPlanItem) (item : CuttingPlanItem),
      item ∈ groups.foldl (fun acc g => acc ++ diaPlanItems g.1 settings g.2) init →
      item ∈ init ∨ ∃ g ∈ groups, item ∈ diaPlanItems g.1 settings g.2 := by
  intro groups
  induction groups with
  | nil => intro init item h; exact Or.inl h
  | cons g rest ih =>
    intro init item h
    simp only [List.foldl_cons] at h
    rcases ih _ item h with hinit | ⟨g2, hg2, hitem⟩
    · rcases List.mem_append.mp hinit with h1 | h2
      · exact Or.inl h1
      · exact Or.inr ⟨g, by simp, h2⟩
    · exact Or.inr ⟨g2, by simp [hg2], hitem⟩

theorem diaGroups_bin_inv (allReqs : List CutReq) (catalog : List StockCatalogItem)
    (settings : ProjectSettings) (inventory : List OffcutInventoryItem) (rng : ℕ → ℚ) :
    ∀ g ∈ diaGroups allReqs catalog settings inventory rng, ∀ b ∈ g.2,
      BinInvariant settings.kerfMm b := by
  intro g hg
  obtain ⟨dia, -, hde⟩ := List.mem_map.mp hg
  rw [← hde]
  exact optimizeDiaGroup_bin_inv _ _ _ _ _

/-- C6: for every item of the cutting plan returned by `optimizeCutting`,
offcut and waste are never both positive; there is a non-negative residual
`r` — the clamped remainder recomputed from the item's own stock length and
kerf-inclusive cuts — with `minLeftoverMm ≤ r` giving `offcut = r` and
`waste = 0`, and `r < minLeftoverMm` giving `offcut = 0` and `waste = r`. -/
theorem C6_offcut_waste_dichotomy (splicePlan : List SplicePlanItem)
    (directPieces : List DirectPiece) (runs : List BarRun) (catalog : List StockCatalogItem)
    (settings : ProjectSettings) (inventory : List OffcutInventoryItem) (rng : ℕ → ℚ) :
    ∀ item ∈ (optimizeCutting splicePlan directPieces runs catalog settings
        inventory rng).cuttingPlan,
      ¬ (0 < item.offcut ∧ 0 < item.waste)
      ∧ ∃ r : ℚ, 0 ≤ r
          ∧ r = max 0 (item.stockLength - (item.cuts.map (fun c => c + settings.kerfMm)).sum)
          ∧ ((settings.minLeftoverMm ≤ r ∧ item.offcut = r ∧ item.waste = 0)
             ∨ (r < settings.minLeftoverMm ∧ item.offcut = 0 ∧ item.waste = r)) := by
  intro item hitem
  have hplan : (optimizeCutting splicePlan directPieces runs catalog settings
      inventory rng).cuttingPlan
    = (diaGroups (allRequestsOf splicePlan runs directPieces) catalog settings
        inventory rng).foldl (fun acc g => acc ++ diaPlanItems g.1 settings g.2) [] := rfl
  rw [hplan] at hitem
  rcases mem_foldl_append settings _ [] item hitem with habs | ⟨g, hg, hmem⟩
  · simp at habs
  · have hbins : ∀ b ∈ g.2, BinInvariant settings.kerfMm b :=
      diaGroups_bin_inv _ _ _ _ _ g hg
    obtain ⟨r, hr0, hrdef, hcls⟩ := (diaPlanItems_spec g.1 settings g.2 hbins).2 item hmem
    refine ⟨?_, r, hr0, hrdef, hcls⟩
    rcases hcls with ⟨-, -, hw⟩ | ⟨-, ho, -⟩
    · rw [hw]
      rintro ⟨-, habs2⟩
      exact lt_irrefl 0 habs2
    · rw [ho]
      rintro ⟨habs2, -⟩
      exact lt_irrefl 0 habs2

theorem optimizeCutting_C6_input :
    (optimizeCutting [] [directC6] [] catC6 settingsC6 [] rngZero).cuttingPlan
      = [itemC6] := by
  have hfast : (if ("FAST" : String) = "BALANCED" then (50 : ℕ)
      else if ("FAST" : String) = "DEEP" then 200 else 1) = 1 := by decide
  norm_num [hfast, optimizeCutting, allRequestsOf, spliceRequests, directRequests, diaGroups,
    uniqueDias, sortQAsc, insertQAsc, dedupFirstQ, containsQ, reqsOfDia, invOfDia,
    getStockOptions, findCatalogItem, sortQDesc, insertQDesc, optimizeDiaGroup,
    consumeInventorySequential, sortOffcutsAsc, insertOffcutAsc, expandInventory,
    sortReqDesc, insertReqDesc, seqStep, bestFitAux, bestOffcutAux, fitBeats,
    performMonteCarlo, packingPass, packStep, bestStockAux, optSkipped, idTruthy,
    fallbackNewStock, insertOptDesc, shuffleRequests, fisherYatesGo, listSwap,
    totalRemaining, diaPlanItems, patternsOf, insertPattern, directC6, catC6,
    settingsC6, rngZero, itemC6, List.filter, List.range_succ, max_def]

/-- C6, witness: the single plan item produced from one 3000 mm direct piece
in a 12000 mm bar (kerf 5, threshold 500) has residual 8995 ≥ 500, offcut
8995 and waste 0. -/
theorem C6_witness :
    ¬ (0 < itemC6.offcut ∧ 0 < itemC6.waste)
    ∧ ∃ r : ℚ, 0 ≤ r
        ∧ r = max 0 (itemC6.stockLength - (itemC6.cuts.map (fun c => c + settingsC6.kerfMm)).sum)
        ∧ ((settingsC6.minLeftoverMm ≤ r ∧ itemC6.offcut = r ∧ itemC6.waste = 0)
           ∨ (r < settingsC6.minLeftoverMm ∧ itemC6.offcut = 0 ∧ itemC6.waste = r)) :=
  C6_offcut_waste_dichotomy [] [directC6] [] catC6 settingsC6 [] rngZero itemC6
    (by rw [optimizeCutting_C6_input]; exact List.mem_singleton.mpr rfl)

/-! ### C9: the guarded waste percentage -/

/-- C9: `wastePercent` is always well defined: when the total input length of
all diameter groups is not positive (in particular with no cut requests at
all) it is reported as `0` with no division; when the input is positive it is
`(input - parts) / input * 100`. -/
theorem C9_waste_percent_guard (splicePlan : List SplicePlanItem)
    (directPieces : List DirectPiece) (runs : List BarRun) (catalog : List StockCatalogItem)
    (settings : ProjectSettings) (inventory : List OffcutInventoryItem) (rng : ℕ → ℚ) :
    (¬ 0 < globalInputLength (diaGroups (allRequestsOf splicePlan runs directPieces)
          catalog settings inventory rng) →
        (optimizeCutting splicePlan directPieces runs catalog settings
          inventory rng).wastePercent = 0)
    ∧ (0 < globalInputLength (diaGroups (allRequestsOf splicePlan runs directPieces)
          catalog settings inventory rng) →
        (optimizeCutting splicePlan directPieces runs catalog settings
          inventory rng).wastePercent
          = (globalInputLength (diaGroups (allRequestsOf splicePlan runs directPieces)
                catalog settings inventory rng)
             - globalPartsLength (diaGroups (allRequestsOf splicePlan runs directPieces)
                catalog settings inventory rng))
            / globalInputLength (diaGroups (allRequestsOf splicePlan runs directPieces)
                catalog settings inventory rng) * 100) := by
  have hwp : (optimizeCutting splicePlan directPieces runs catalog settings
      inventory rng).wastePercent
      = if 0 < globalInputLength (diaGroups (allRequestsOf splicePlan runs directPieces)
            catalog settings inventory rng)
        then (globalInputLength (diaGroups (allRequestsOf splicePlan runs directPieces)
                catalog settings inventory rng)
              - globalPartsLength (diaGroups (allRequestsOf splicePlan runs directPieces)
                catalog settings inventory rng))
            / globalInputLength (diaGroups (allRequestsOf splicePlan runs directPieces)
                catalog settings inventory rng) * 100
        else 0 := rfl
  constructor
  · intro h
    rw [hwp, if_neg h]
  · intro h
    rw [hwp, if_pos h]

/-- C9, witness: with no requests at all, the total input length is zero and
`wastePercent` is reported as `0`. -/
theorem C9_witness :
    (optimizeCutting [] [] [] catC6 settingsC6 [] rngZero).wastePercent = 0 :=
  (C9_waste_percent_guard [] [] [] catC6 settingsC6 [] rngZero).1 (by
    norm_num [diaGroups, uniqueDias, allRequestsOf, spliceRequests, directRequests,
      dedupFirstQ, sortQAsc, globalInputLength])

/-! ### C7: the MIXED exact tie goes to new stock, not inventory -/

theorem foldl_keep_best (B : List Bin) (W : ℚ) :
    ∀ l : List ℕ,
      (l.foldl (fun (best : List Bin × ℚ) _ => if W < best.2 then (B, W) else best) (B, W))
        = (B, W) := by
  intro l
  induction l with
  | nil => rfl
  | cons i rest ih =>
    simp only [List.foldl_cons]
    rw [if_neg (lt_irrefl W)]
    exact ih

/-- C7, counterexample: a single 11900 mm request under MIXED with kerf 5,
one inventory unit of 12000 mm and new stock 12000 mm — an exact best-fit
tie. The produced bin is a NEW-STOCK bin: the combined pool lists new stock
first and the scan only replaces the incumbent on a strictly smaller
remainder, so the inventory unit is NOT consumed, contrary to the claim. -/
theorem C7_counterexample :
    optimizeDiaGroup [⟨20, 11900, "s", "x"⟩] [12000] settingsC7
        [⟨"inv1", 20, 12000, 1⟩] rngZero
      = [⟨12000, 95, [11900], false⟩]
    ∧ ∀ b ∈ optimizeDiaGroup [⟨20, 11900, "s", "x"⟩] [12000] settingsC7
        [⟨"inv1", 20, 12000, 1⟩] rngZero, b.isInventory = false := by
  have hfast : (if ("FAST" : String) = "BALANCED" then (50 : ℕ)
      else if ("FAST" : String) = "DEEP" then 200 else 1) = 1 := by decide
  have hns : ("MIXED" : String) ≠ "SEQUENTIAL" := by decide
  have hne : ("MIXED" : String) ≠ "" := by decide
  have heval : optimizeDiaGroup [⟨20, 11900, "s", "x"⟩] [12000] settingsC7
      [⟨"inv1", 20, 12000, 1⟩] rngZero = [⟨12000, 95, [11900], false⟩] := by
    norm_num [hns, hne, optimizeDiaGroup, settingsC7, rngZero, expandInventory, performMonteCarlo,
      packingPass, packStep, bestFitAux, bestStockAux, optSkipped, idTruthy, fitBeats,
      fallbackNewStock, insertOptDesc, sortReqDesc, insertReqDesc, shuffleRequests,
      fisherYatesGo, listSwap, totalRemaining, consumeInventorySequential,
      List.range_succ, List.filter, hfast]
  refine ⟨heval, ?_⟩
  intro b hb
  rw [heval] at hb
  have hb2 : b = ⟨12000, 95, [11900], false⟩ := by simpa using hb
  rw [hb2]

/-- C7 (amended): under the MIXED strategy an exact best-fit tie between the
new-stock option and an inventory unit of the same length is won by NEW
stock: the combined pool lists new stock first, and the supply scan replaces
the incumbent only on a strictly smaller remainder. A single fitting request
yields one new-stock bin; the inventory unit stays unused. -/
theorem C7_mixed_tie_prefers_new_stock (r : CutReq) (L : ℚ) (settings : ProjectSettings)
    (iid : String) (idia : ℚ) (rng : ℕ → ℚ)
    (hstrat : settings.inventoryStrategy = "MIXED")
    (hfit : r.len + settings.kerfMm ≤ L) :
    optimizeDiaGroup [r] [L] settings [⟨iid, idia, L, 1⟩] rng
      = [⟨L, L - (r.len + settings.kerfMm), [r.len], false⟩] := by
  have h01 : 0 ≤ L - (r.len + settings.kerfMm) := by linarith
  have hsh : ∀ t, shuffleRequests rng t [r] = [r] := fun t => rfl
  have hsort : sortReqDesc [r] = [r] := rfl
  have hpack : packingPass [r]
      (List.map (fun s => (⟨s, false, none⟩ : AvailableStockOption)) [L]
        ++ List.map (fun oc => (⟨oc.1, true, some oc.2⟩ : AvailableStockOption))
            (expandInventory [⟨iid, idia, L, 1⟩]))
      settings.kerfMm
      = ⟨[⟨L, L - (r.len + settings.kerfMm), [r.len], false⟩], 1, []⟩ := by
    norm_num [packingPass, packStep, bestFitAux, bestStockAux, optSkipped, idTruthy,
      fitBeats, fallbackNewStock, insertOptDesc, expandInventory, List.range_succ,
      List.filter, h01]
  unfold optimizeDiaGroup
  rw [hstrat]
  rw [if_neg (by decide)]
  unfold performMonteCarlo
  simp only [hsh, hsort, hpack]
  rw [foldl_keep_best]

/-- C7, witness: the amended theorem at the concrete tie input — request
11900 mm, kerf 5, new stock and inventory both 12000 mm — gives the single
new-stock bin with remainder 95. -/
theorem C7_witness :
    optimizeDiaGroup [⟨20, 11900, "s", "x"⟩] [12000] settingsC7
        [⟨"inv1", 20, 12000, 1⟩] rngZero
      = [⟨12000, 95, [11900], false⟩] := by
  have h := C7_mixed_tie_prefers_new_stock ⟨20, 11900, "s", "x"⟩ 12000 settingsC7 "inv1" 20
    rngZero rfl (by norm_num [settingsC7])
  rw [h]
  norm_num [settingsC7]

/-! ### C8: FAST is a seed pass plus one shuffled pass -/

theorem listSwap_self : ∀ (l : List CutReq) (k : ℕ), listSwap l k k = l := by
  intro l
  induction l with
  | nil => intro k; rfl
  | cons x rest ih =>
    intro k
    cases k with
    | zero =>
      unfold listSwap
      simp
    | succ k2 =>
      unfold listSwap
      cases h : rest[k2]? with
      | none => simp [List.getElem?_cons_succ, h]
      | some a =>
        simp only [List.getElem?_cons_succ, h]
        have h2 := ih k2
        unfold listSwap at h2
        rw [h] at h2
        simp only [List.set_cons_succ, List.cons.injEq]
        exact ⟨trivial, h2⟩

theorem performMonteCarlo_fast (requests : List CutReq) (opts : List AvailableStockOption)
    (settings : ProjectSettings) (rng : ℕ → ℚ)
    (hlevel : settings.optimizationLevel = "FAST") :
    performMonteCarlo requests opts settings rng
      = if totalRemaining (packingPass (shuffleRequests rng 0 requests) opts
            settings.kerfMm).bins
          < totalRemaining (packingPass (sortReqDesc requests) opts settings.kerfMm).bins
        then (packingPass (shuffleRequests rng 0 requests) opts settings.kerfMm).bins
        else (packingPass (sortReqDesc requests) opts settings.kerfMm).bins := by
  have hns1 : ("FAST" : String) ≠ "BALANCED" := by decide
  have hns2 : ("FAST" : String) ≠ "DEEP" := by decide
  unfold performMonteCarlo
  rw [hlevel]
  norm_num [hns1, hns2, List.range_succ, totalRemaining]
  by_cases h : ((packingPass (shuffleRequests rng 0 requests) opts
        settings.kerfMm).bins.map (fun b => b.remaining)).sum
      < ((packingPass (sortReqDesc requests) opts settings.kerfMm).bins.map
        (fun b => b.remaining)).sum
  · simp [h]
  · simp [h]

/-- C8, counterexample: with `optimizationLevel = "FAST"` the Monte Carlo
driver is NOT the plain best-fit-decreasing seed pass and DOES depend on the
PRNG: on six requests against 10000 mm stock, a PRNG whose shuffle is the
identity yields two perfect bins, different from the three-bin seed result,
and different from the result under the constant-zero PRNG. -/
theorem C8_counterexample :
    performMonteCarlo reqsC8 [⟨10000, false, none⟩] settingsC8 rngC8
        ≠ (packingPass (sortReqDesc reqsC8) [⟨10000, false, none⟩] settingsC8.kerfMm).bins
    ∧ performMonteCarlo reqsC8 [⟨10000, false, none⟩] settingsC8 rngC8
        ≠ performMonteCarlo reqsC8 [⟨10000, false, none⟩] settingsC8 rngZero := by
  have hkerf : settingsC8.kerfMm = 0 := rfl
  have t2 : Int.toNat 2 = 2 := rfl
  have t3 : Int.toNat 3 = 3 := rfl
  have t4 : Int.toNat 4 = 4 := rfl
  have t5 : Int.toNat 5 = 5 := rfl
  have hshufId : shuffleRequests rngC8 0 reqsC8 = reqsC8 := by
    norm_num [t2, t3, t4, t5, shuffleRequests, fisherYatesGo, rngC8, reqsC8,
      listSwap_self, List.getD]
  have hshuf0 : shuffleRequests rngZero 0 reqsC8
      = [⟨20, 4000, "s", "b"⟩, ⟨20, 2000, "s", "c"⟩, ⟨20, 5000, "s", "d"⟩,
         ⟨20, 3000, "s", "e"⟩, ⟨20, 2000, "s", "f"⟩, ⟨20, 4000, "s", "a"⟩] := by
    norm_num [shuffleRequests, fisherYatesGo, rngZero, reqsC8, listSwap]
  have hseed : (packingPass (sortReqDesc reqsC8) [⟨10000, false, none⟩] 0).bins
      = [⟨10000, 1000, [5000, 4000], false⟩, ⟨10000, 1000, [4000, 3000, 2000], false⟩,
         ⟨10000, 8000, [2000], false⟩] := by
    norm_num [packingPass, packStep, bestFitAux, bestStockAux, optSkipped, idTruthy,
      fitBeats, fallbackNewStock, insertOptDesc, sortReqDesc, insertReqDesc, reqsC8,
      List.filter]
  have hpackId : (packingPass reqsC8 [⟨10000, false, none⟩] 0).bins
      = [⟨10000, 0, [4000, 4000, 2000], false⟩, ⟨10000, 0, [5000, 3000, 2000], false⟩] := by
    norm_num [packingPass, packStep, bestFitAux, bestStockAux, optSkipped, idTruthy,
      fitBeats, fallbackNewStock, insertOptDesc, reqsC8, List.filter]
  have hpack0 : (packingPass [(⟨20, 4000, "s", "b"⟩ : CutReq), ⟨20, 2000, "s", "c"⟩,
        ⟨20, 5000, "s", "d"⟩, ⟨20, 3000, "s", "e"⟩, ⟨20, 2000, "s", "f"⟩,
        ⟨20, 4000, "s", "a"⟩] [⟨10000, false, none⟩] 0).bins
      = [⟨10000, 1000, [4000, 2000, 3000], false⟩, ⟨10000, 3000, [5000, 2000], false⟩,
         ⟨10000, 6000, [4000], false⟩] := by
    norm_num [packingPass, packStep, bestFitAux, bestStockAux, optSkipped, idTruthy,
      fitBeats, fallbackNewStock, insertOptDesc, List.filter]
  have hMC1 : performMonteCarlo reqsC8 [⟨10000, false, none⟩] settingsC8 rngC8
      = [⟨10000, 0, [4000, 4000, 2000], false⟩, ⟨10000, 0, [5000, 3000, 2000], false⟩] := by
    rw [performMonteCarlo_fast reqsC8 [⟨10000, false, none⟩] settingsC8 rngC8 rfl]
    rw [hkerf, hshufId, hseed, hpackId]
    norm_num [totalRemaining]
  have hMC0 : performMonteCarlo reqsC8 [⟨10000, false, none⟩] settingsC8 rngZero
      = [⟨10000, 1000, [5000, 4000], false⟩, ⟨10000, 1000, [4000, 3000, 2000], false⟩,
         ⟨10000, 8000, [2000], false⟩] := by
    rw [performMonteCarlo_fast reqsC8 [⟨10000, false, none⟩] settingsC8 rngZero rfl]
    rw [hkerf, hshuf0, hseed, hpack0]
    norm_num [totalRemaining]
  constructor
  · rw [hMC1, hkerf, hseed]
    intro habs
    simp at habs
  · rw [hMC1, hMC0]
    intro habs
    norm_num at habs

/-- C8 (amended): with `optimizationLevel = "FAST"` the iteration budget is 1,
so `performMonteCarlo` runs the seed pass (requests sorted by length
descending) PLUS one shuffled pass, returning the shuffled bins exactly when
their total residual is strictly smaller — not the seed pass alone, and the
result depends on the PRNG. -/
theorem C8_fast_single_shuffled_pass (requests : List CutReq)
    (opts : List AvailableStockOption) (settings : ProjectSettings) (rng : ℕ → ℚ)
    (hlevel : settings.optimizationLevel = "FAST") :
    performMonteCarlo requests opts settings rng
      = if totalRemaining (packingPass (shuffleRequests rng 0 requests) opts
            settings.kerfMm).bins
          < totalRemaining (packingPass (sortReqDesc requests) opts settings.kerfMm).bins
        then (packingPass (shuffleRequests rng 0 requests) opts settings.kerfMm).bins
        else (packingPass (sortReqDesc requests) opts settings.kerfMm).bins :=
  performMonteCarlo_fast requests opts settings rng hlevel

/-- C8, witness: the amended description applied to the six concrete requests
with the identity-shuffle PRNG under FAST settings. -/
theorem C8_witness :
    performMonteCarlo reqsC8 [⟨10000, false, none⟩] settingsC8 rngC8
      = if totalRemaining (packingPass (shuffleRequests rngC8 0 reqsC8) [⟨10000, false, none⟩]
            settingsC8.kerfMm).bins
          < totalRemaining (packingPass (sortReqDesc reqsC8) [⟨10000, false, none⟩]
            settingsC8.kerfMm).bins
        then (packingPass (shuffleRequests rngC8 0 reqsC8) [⟨10000, false, none⟩]
            settingsC8.kerfMm).bins
        else (packingPass (sortReqDesc reqsC8) [⟨10000, false, none⟩] settingsC8.kerfMm).bins :=
  C8_fast_single_shuffled_pass reqsC8 [⟨10000, false, none⟩] settingsC8 rngC8 rfl

end RebarOpt
